import Mathlib

/-!
Verification of the backup / verify / restore subsystem of
`skills/backup-export/scripts/backup.py`.

The Python source is shallowly embedded as executable Lean definitions:

* filesystem paths are modelled as lists of path segments (`SPath`);
  directory-entry names contain no separator character, so the segment
  representation is in bijection with the slash-joined strings the script
  manipulates;
* file contents are byte lists (`List Nat`, each element a byte value);
* SHA-256 (`hashlib.sha256`) is implemented in full below, over byte lists,
  with only structural recursion so that concrete digests evaluate inside
  the kernel;
* the `MANIFEST.json` member is serialised with an injective executable
  encoding standing in for `json.dumps` / `json.loads` (the script only ever
  round-trips the key-to-digest mapping through JSON; key order inside the
  serialised form is observed by nothing that is modelled);
* `OSError` during a read is modelled by the environment's read function
  returning `none`; `tarfile.TarError` when opening an archive is a
  distinguished input constructor.
-/

/-! ## SHA-256 over byte lists

A direct implementation of FIPS 180-4 SHA-256.  32-bit machine words are
`Nat` values reduced modulo `2 ^ 32`; the bitwise operations are written
with fuelled structural recursion on the 32 bit positions so that every
concrete digest reduces by `decide` / `rfl` in the kernel.
-/

/-- Reduce to a 32-bit word. -/
def w32 (n : Nat) : Nat := n % 4294967296

/-- Combine two numbers bit-by-bit (little-endian) for `fuel` bit positions,
using `f` on each pair of bits. -/
def bitZip (f : Nat → Nat → Nat) : Nat → Nat → Nat → Nat
  | 0, _, _ => 0
  | fuel + 1, x, y => f (x % 2) (y % 2) + 2 * bitZip f fuel (x / 2) (y / 2)

/-- 32-bit exclusive or. -/
def xor32 (x y : Nat) : Nat := bitZip (fun a b => (a + b) % 2) 32 x y

/-- 32-bit bitwise and. -/
def and32 (x y : Nat) : Nat := bitZip (fun a b => a * b) 32 x y

/-- 32-bit bitwise complement. -/
def not32 (x : Nat) : Nat := 4294967295 - w32 x

/-- Rotate a 32-bit word right by `n` bits. -/
def rotr32 (n x : Nat) : Nat := x / 2 ^ n + x % 2 ^ n * 2 ^ (32 - n)

/-- SHA-256 round constants. -/
def shaK : List Nat :=
  [1116352408, 1899447441, 3049323471, 3921009573, 961987163,
   1508970993, 2453635748, 2870763221, 3624381080, 310598401,
   607225278, 1426881987, 1925078388, 2162078206, 2614888103,
   3248222580, 3835390401, 4022224774, 264347078, 604807628,
   770255983, 1249150122, 1555081692, 1996064986, 2554220882,
   2821834349, 2952996808, 3210313671, 3336571891, 3584528711,
   113926993, 338241895, 666307205, 773529912, 1294757372,
   1396182291, 1695183700, 1986661051, 2177026350, 2456956037,
   2730485921, 2820302411, 3259730800, 3345764771, 3516065817,
   3600352804, 4094571909, 275423344, 430227734, 506948616,
   659060556, 883997877, 958139571, 1322822218, 1537002063,
   1747873779, 1955562222, 2024104815, 2227730452, 2361852424,
   2428436474, 2756734187, 3204031479, 3329325298]

/-- The eight-word SHA-256 working state. -/
structure H8 where
  a : Nat
  b : Nat
  c : Nat
  d : Nat
  e : Nat
  f : Nat
  g : Nat
  h : Nat
deriving Repr, DecidableEq

/-- SHA-256 initial hash value. -/
def shaH0 : H8 :=
  ⟨1779033703, 3144134277, 1013904242, 2773480762,
   1359893119, 2600822924, 528734635, 1541459225⟩

/-- Big-endian length field: eight bytes encoding `n` (the bit length). -/
def lenBytes8 (n : Nat) : List Nat :=
  [n / 2 ^ 56 % 256, n / 2 ^ 48 % 256, n / 2 ^ 40 % 256, n / 2 ^ 32 % 256,
   n / 2 ^ 24 % 256, n / 2 ^ 16 % 256, n / 2 ^ 8 % 256, n % 256]

/-- SHA-256 message padding: append `0x80`, zero bytes up to 56 mod 64,
then the 64-bit big-endian bit length. -/
def padBytes (msg : List Nat) : List Nat :=
  msg ++ 128 :: List.replicate ((119 - msg.length % 64) % 64) 0
      ++ lenBytes8 (8 * msg.length)

/-- Group bytes into big-endian 32-bit words. -/
def bytesToWords : List Nat → List Nat
  | a :: b :: c :: d :: rest =>
      (a * 16777216 + b * 65536 + c * 256 + d) :: bytesToWords rest
  | _ => []

/-- Split a word list into blocks of 16 words (`fuel` bounds the number of
blocks; it is called with the list length). -/
def chunk16 : Nat → List Nat → List (List Nat)
  | 0, _ => []
  | _, [] => []
  | fuel + 1, ws => ws.take 16 :: chunk16 fuel (ws.drop 16)

/-- Message-schedule sigma-0. -/
def sg0 (x : Nat) : Nat := xor32 (xor32 (rotr32 7 x) (rotr32 18 x)) (x / 2 ^ 3)

/-- Message-schedule sigma-1. -/
def sg1 (x : Nat) : Nat := xor32 (xor32 (rotr32 17 x) (rotr32 19 x)) (x / 2 ^ 10)

/-- Extend the 16 block words by `n` further schedule words. -/
def extendWords : Nat → List Nat → List Nat
  | 0, ws => ws
  | n + 1, ws =>
      let t := w32 (sg1 (ws.getD (ws.length - 2) 0) + ws.getD (ws.length - 7) 0
           + sg0 (ws.getD (ws.length - 15) 0) + ws.getD (ws.length - 16) 0)
      extendWords n (ws ++ [t])

/-- Compression sigma-0. -/
def bs0 (x : Nat) : Nat := xor32 (xor32 (rotr32 2 x) (rotr32 13 x)) (rotr32 22 x)

/-- Compression sigma-1. -/
def bs1 (x : Nat) : Nat := xor32 (xor32 (rotr32 6 x) (rotr32 11 x)) (rotr32 25 x)

/-- SHA-256 choice function. -/
def shaCh (e f g : Nat) : Nat := xor32 (and32 e f) (and32 (not32 e) g)

/-- SHA-256 majority function. -/
def shaMaj (a b c : Nat) : Nat := xor32 (xor32 (and32 a b) (and32 a c)) (and32 b c)

/-- One compression round, consuming a (round constant, schedule word) pair. -/
def shaRound (s : H8) (kw : Nat × Nat) : H8 :=
  let t1 := w32 (s.h + bs1 s.e + shaCh s.e s.f s.g + kw.1 + kw.2)
  let t2 := w32 (bs0 s.a + shaMaj s.a s.b s.c)
  ⟨w32 (t1 + t2), s.a, s.b, s.c, w32 (s.d + t1), s.e, s.f, s.g⟩

/-- Process one 16-word block. -/
def shaBlock (s : H8) (block : List Nat) : H8 :=
  let t := (shaK.zip (extendWords 48 block)).foldl shaRound s
  ⟨w32 (s.a + t.a), w32 (s.b + t.b), w32 (s.c + t.c), w32 (s.d + t.d),
   w32 (s.e + t.e), w32 (s.f + t.f), w32 (s.g + t.g), w32 (s.h + t.h)⟩

/-- SHA-256 of a byte list, as the final eight-word state. -/
def sha256state (msg : List Nat) : H8 :=
  let ws := bytesToWords (padBytes msg)
  (chunk16 ws.length ws).foldl shaBlock shaH0

/-- Big-endian bytes of one 32-bit word. -/
def wordBytes (w : Nat) : List Nat :=
  [w / 16777216 % 256, w / 65536 % 256, w / 256 % 256, w % 256]

/-- SHA-256 digest of a byte list, as 32 bytes. -/
def sha256digest (msg : List Nat) : List Nat :=
  let s := sha256state msg
  wordBytes s.a ++ wordBytes s.b ++ wordBytes s.c ++ wordBytes s.d
    ++ wordBytes s.e ++ wordBytes s.f ++ wordBytes s.g ++ wordBytes s.h

/-- The sixteen lowercase hexadecimal digits. -/
def hexTable : List Char := "0123456789abcdef".data

/-- Lowercase hexadecimal digit of `n % 16`. -/
def hexDigit (n : Nat) : Char := hexTable.getD (n % 16) '0'

/-- Two lowercase hex characters for one byte. -/
def byteHex (b : Nat) : List Char := [hexDigit (b / 16), hexDigit b]

/-- `hashlib.sha256(msg).hexdigest()`: the 64-character lowercase hex digest. -/
def sha256hex (msg : List Nat) : String :=
  ⟨(sha256digest msg).flatMap byteHex⟩

/-- The UTF-8 bytes of the ASCII string "hello". -/
def helloBytes : List Nat := [104, 101, 108, 108, 111]

set_option maxRecDepth 100000 in
example : sha256hex helloBytes =
    "2cf24dba5fb0a30e26e83b2ac5b9e29e1b161e5c1fa7425e73043362938b9824" := by
  decide

/-! ## Paths, archive members, manifest serialisation -/

/-- A filesystem or archive path, as a list of path segments.  The Python
script manipulates slash-joined strings; since directory-entry names never
contain the separator, the segment list is a faithful representation. -/
abbrev SPath := List String

/-- A collected file: (absolute source path, archive-relative path),
mirroring the tuples returned by `collect_files`. -/
abbrev CFile := SPath × SPath

/-- The parsed content of `MANIFEST.json`: an association list from
archive-relative path to digest string, in dictionary insertion order. -/
abbrev Manifest := List (SPath × String)

/-- One member of a tar archive: its name, whether it is a regular file
(`tarfile.TarInfo.isfile`), and its byte content. -/
structure Member where
  name : SPath
  isFile : Bool
  content : List Nat
deriving Repr, DecidableEq

/-- The archive name of the manifest member. -/
def manifestName : SPath := ["MANIFEST.json"]

/-- The archive name of the run-metadata member. -/
def metaName : SPath := ["BACKUP_META.json"]

/-- Encode a string as length-prefixed character codes. -/
def encStr (s : String) : List Nat := s.length :: s.data.map Char.toNat

/-- Encode a segment path as a length-prefixed list of encoded segments. -/
def encPath (p : SPath) : List Nat := p.length :: p.flatMap encStr

/-- Encode one manifest entry. -/
def encEntry (e : SPath × String) : List Nat := encPath e.1 ++ encStr e.2

/-- Injective executable serialisation of a manifest, standing in for
`json.dumps(manifest, indent=2, sort_keys=True).encode("utf-8")`.  Only the
key-to-digest mapping is ever observed after deserialisation, so the
pretty-printed sorted-key JSON text is modelled by this encoding. -/
def encodeManifest (m : Manifest) : List Nat := m.length :: m.flatMap encEntry

/-- Decode a length-prefixed string; return the string and the rest. -/
def decStr (l : List Nat) : Option (String × List Nat) :=
  match l with
  | [] => none
  | n :: rest =>
      if n ≤ rest.length then
        some (⟨(rest.take n).map Char.ofNat⟩, rest.drop n)
      else none

/-- Decode `n` length-prefixed strings. -/
def decStrs : Nat → List Nat → Option (List String × List Nat)
  | 0, l => some ([], l)
  | n + 1, l => do
      let (s, l1) ← decStr l
      let (ss, l2) ← decStrs n l1
      pure (s :: ss, l2)

/-- Decode a segment path. -/
def decPath (l : List Nat) : Option (SPath × List Nat) :=
  match l with
  | [] => none
  | n :: rest => decStrs n rest

/-- Decode `n` manifest entries, requiring the input to be exhausted. -/
def decEntries : Nat → List Nat → Option Manifest
  | 0, [] => some []
  | 0, _ :: _ => none
  | n + 1, l => do
      let (k, l1) ← decPath l
      let (v, l2) ← decStr l1
      let m ← decEntries n l2
      pure ((k, v) :: m)

/-- Deserialisation of a manifest, standing in for `json.loads`;
`none` models a parse failure (which the script does not catch). -/
def decodeManifest (l : List Nat) : Option Manifest :=
  match l with
  | [] => none
  | n :: rest => decEntries n rest

theorem decStr_encStr (s : String) (r : List Nat) :
    decStr (encStr s ++ r) = some (s, r) := by
  have hlen : (s.data.map Char.toNat).length = s.length := by
    rw [List.length_map]; rfl
  have h1 : s.length ≤ (s.data.map Char.toNat ++ r).length := by
    rw [List.length_append, hlen]; omega
  simp only [encStr, decStr, List.cons_append, if_pos h1]
  have htake : (s.data.map Char.toNat ++ r).take s.length = s.data.map Char.toNat := by
    rw [List.take_append_of_le_length (le_of_eq hlen.symm), ← hlen, List.take_length]
  have hdrop : (s.data.map Char.toNat ++ r).drop s.length = r := by
    rw [List.drop_append_of_le_length (le_of_eq hlen.symm), ← hlen, List.drop_length,
      List.nil_append]
  rw [htake, hdrop, List.map_map]
  simp [Function.comp_def, Char.ofNat_toNat]

theorem decStrs_flatMap (p : List String) (r : List Nat) :
    decStrs p.length (p.flatMap encStr ++ r) = some (p, r) := by
  induction p generalizing r with
  | nil => simp [decStrs]
  | cons s ss ih =>
      simp [decStrs, List.flatMap_cons, List.append_assoc, decStr_encStr, ih]

theorem decPath_encPath (p : SPath) (r : List Nat) :
    decPath (encPath p ++ r) = some (p, r) := by
  simp only [encPath, decPath, List.cons_append]
  exact decStrs_flatMap p r

theorem decEntries_flatMap (m : Manifest) :
    decEntries m.length (m.flatMap encEntry) = some m := by
  induction m with
  | nil => simp [decEntries]
  | cons e es ih =>
      simp [decEntries, encEntry, List.flatMap_cons, List.append_assoc,
        decPath_encPath, decStr_encStr, ih]

/-- The manifest serialisation round-trips, as `json.loads ∘ json.dumps` does. -/
theorem decodeManifest_encodeManifest (m : Manifest) :
    decodeManifest (encodeManifest m) = some m := by
  simpa [encodeManifest, decodeManifest] using decEntries_flatMap m

/-! ## Environment and category registry

The environment captures every filesystem fact the script consults:
the project base directory (`resolve_base_dir`), the home directory, the
resolved sessions directory (`resolve_sessions_dir`, abstracted to the name
of the first agent directory that contains a `sessions` folder — the spec
flags this enumeration-order dependence as an open ambiguity), the files
found by `Path.rglob` under the sessions directory, `Path.is_file` for the
config candidates, glob results for the registry patterns (only regular
files, empty when the parent directory is absent), and file contents
(`none` models `OSError`).
-/

/-- One entry found by `rglob("*")` under the sessions directory. -/
structure SessFile where
  rel : SPath
  isFile : Bool
  isJsonl : Bool
  mtime : Option Int
deriving Repr, DecidableEq

/-- The filesystem environment of one run. -/
structure Env where
  base : SPath
  home : SPath
  agent : Option String
  sessFiles : List SessFile
  isFile : SPath → Bool
  read : SPath → Option (List Nat)
  globNames : SPath → String → List String

/-- One entry of the `CATEGORIES` registry: human label, glob patterns
(each split as directory segments plus the final glob component, the way
the script splits them with `Path(pattern).parent` / `Path(pattern).name`),
and priority tag. -/
structure Cat where
  label : String
  paths : List (SPath × String)
  priority : String
deriving Repr, DecidableEq

/-- The `CATEGORIES` registry, in dictionary (insertion) order. -/
def CATEGORIES : List (String × Cat) :=
  [("memory",    ⟨"Memory files",     [(["memory"], "*.md")],             "Critical"⟩),
   ("people",    ⟨"People files",     [(["memory", "people"], "*.md")],   "Critical"⟩),
   ("knowledge", ⟨"Knowledge base",   [(["memory", "knowledge"], "*.md")], "Critical"⟩),
   ("goals",     ⟨"Goals",            [(["memory"], "goals.md")],         "Critical"⟩),
   ("decisions", ⟨"Decision journal", [(["memory", "decisions"], "*.md")], "High"⟩),
   ("playbooks", ⟨"Playbooks",        [(["memory", "playbooks"], "*.md")], "High"⟩),
   ("threads",   ⟨"Thread state",     [(["memory", "threads"], "*.md")],  "Medium"⟩),
   ("config",    ⟨"Config files",     [],                                 "High"⟩),
   ("sessions",  ⟨"Session logs",     [],                                 "High"⟩)]

/-- `CATEGORIES.get(cat)`. -/
def lookupCat (c : String) : Option Cat :=
  (CATEGORIES.find? (fun e => decide (e.1 = c))).map (·.2)

/-- `MODE_CATEGORIES`. -/
def MODE_CATEGORIES : List (String × List String) :=
  [("full", CATEGORIES.map (·.1)),
   ("memory", ["memory", "people", "knowledge", "goals", "decisions",
               "playbooks", "threads"]),
   ("sessions", ["sessions"])]

/-- `resolve_sessions_dir()`: `~/.openclaw/agents/<agent>/sessions` for the
first agent directory that has a `sessions` subdirectory, if any. -/
def sessionsDirOf (env : Env) : Option SPath :=
  env.agent.map (fun a => env.home ++ [".openclaw", "agents", a, "sessions"])

/-! ## File collection (`collect_files`) -/

/-- Candidates produced for the `sessions` category: every regular file
under the sessions directory; when a `--since` cutoff is given, files with
the `.jsonl` suffix are kept only if their modification time is not before
the cutoff (a failing `stat` skips the file), and files with any other
suffix are kept regardless of the cutoff. -/
def sessionCandidates (env : Env) (since : Option Int) : List CFile :=
  match sessionsDirOf env with
  | none => []
  | some sd =>
      env.sessFiles.filterMap fun f =>
        if !f.isFile then none
        else
          match since with
          | some s =>
              if f.isJsonl then
                match f.mtime with
                | none => none
                | some t =>
                    if t < s then none
                    else some (sd ++ f.rel, "sessions" :: f.rel)
              else some (sd ++ f.rel, "sessions" :: f.rel)
          | none => some (sd ++ f.rel, "sessions" :: f.rel)

/-- Candidates for the `config` category: the fixed candidate list, each
kept when it exists, archived under `config/<filename>`. -/
def configCandidates (env : Env) : List CFile :=
  [(env.home ++ [".openclaw", "config.json"], "config.json"),
   (env.home ++ [".openclaw", "settings.json"], "settings.json"),
   (env.base ++ ["openclaw.mjs"], "openclaw.mjs")].filterMap
    fun pc => if env.isFile pc.1 then some (pc.1, ["config", pc.2]) else none

/-- Candidates for a glob-based registry category. -/
def globCandidates (env : Env) (c : Cat) : List CFile :=
  c.paths.flatMap fun pat =>
    (env.globNames (env.base ++ pat.1) pat.2).map fun n =>
      (env.base ++ pat.1 ++ [n], pat.1 ++ [n])

/-- All candidates of one category, in the order the loop body visits them;
`sessions` and `config` are dispatched before the registry lookup, and an
identifier absent from the registry contributes nothing. -/
def catCandidates (env : Env) (since : Option Int) (cat : String) : List CFile :=
  if cat = "sessions" then sessionCandidates env since
  else if cat = "config" then configCandidates env
  else
    match lookupCat cat with
    | none => []
    | some c => globCandidates env c

/-- One step of the accumulating `seen`-set deduplication. -/
def dedupStep (acc : List CFile × List SPath) (x : CFile) : List CFile × List SPath :=
  if x.2 ∈ acc.2 then acc else (acc.1 ++ [x], x.2 :: acc.2)

/-- `collect_files(base_dir, categories, since)`: visit the categories in
order, thread one `seen` set of archive-relative paths through the whole
pass, and keep the first file claiming each archive-relative path. -/
def collect_files (env : Env) (cats : List String) (since : Option Int) :
    List CFile :=
  (cats.foldl (fun acc cat => (catCandidates env since cat).foldl dedupStep acc)
    ([], [])).1

/-! ## Manifest computation (`compute_manifest`) -/

/-- The digest recorded for one file: the SHA-256 hex digest of its bytes,
or the `"ERROR"` sentinel when reading raises `OSError`. -/
def hashOrError (read : SPath → Option (List Nat)) (p : SPath) : String :=
  match read p with
  | some bs => sha256hex bs
  | none => "ERROR"

/-- Python dict insertion: overwrite in place if the key exists, else append. -/
def dinsert (m : Manifest) (k : SPath) (v : String) : Manifest :=
  if m.any (fun e => decide (e.1 = k)) then
    m.map (fun e => if e.1 = k then (k, v) else e)
  else m ++ [(k, v)]

/-- Python dict lookup. -/
def dlookup (m : Manifest) (k : SPath) : Option String :=
  (m.find? (fun e => decide (e.1 = k))).map (·.2)

/-- `compute_manifest(files)`: one dict entry per archive-relative path,
digest or `"ERROR"`; no unreadable file aborts the computation. -/
def compute_manifest (read : SPath → Option (List Nat)) (files : List CFile) :
    Manifest :=
  files.foldl (fun m f => dinsert m f.2 (hashOrError read f.1)) []

/-! ## Archive creation (`create_backup`) -/

/-- Run metadata (`BACKUP_META.json`): label, file count, and the set of
top-level archive-path prefixes.  The wall-clock `created` timestamp is not
modelled. -/
structure RunMeta where
  label : String
  fileCount : Nat
  categories : List String
deriving Repr, DecidableEq

/-- The metadata recorded by `create_backup`. -/
def runMeta (label : String) (files : List CFile) : RunMeta :=
  ⟨label, files.length, (files.map (fun f => f.2.headD "")).dedup⟩

/-- Injective serialisation of the metadata member (stands in for its JSON
text; nothing modelled ever deserialises it). -/
def encodeMeta (m : RunMeta) : List Nat :=
  encStr m.label ++ m.fileCount :: encPath m.categories

/-- The result of one `create_backup` call: the archive members in the
order they are written, and the archive-relative paths whose `tar.add`
failed with `OSError` (each reported as a warning). -/
structure BackupResult where
  members : List Member
  warnings : List SPath
deriving Repr

/-- The payload members: every collected file whose `tar.add` succeeds,
added under its archive-relative path as a regular-file member. -/
def payloadMembers (read : SPath → Option (List Nat)) (files : List CFile) :
    List Member :=
  files.filterMap fun f => (read f.1).map fun bs => ⟨f.2, true, bs⟩

/-- The warnings: archive-relative paths of files whose `tar.add` failed. -/
def addWarnings (read : SPath → Option (List Nat)) (files : List CFile) :
    List SPath :=
  files.filterMap fun f =>
    match read f.1 with
    | some _ => none
    | none => some f.2

/-- `create_backup(output_dir, files, label)`: compute the manifest, add
every collected file (an `OSError` on one file yields a warning and skips
just that file), then append the synthetic `MANIFEST.json` and
`BACKUP_META.json` members.  The timestamped archive filename and the
on-disk write are not modelled; the archive is its member list. -/
def create_backup (read : SPath → Option (List Nat)) (files : List CFile)
    (label : String) : BackupResult :=
  let manifest := compute_manifest read files
  ⟨payloadMembers read files ++
      [⟨manifestName, true, encodeManifest manifest⟩,
       ⟨metaName, true, encodeMeta (runMeta label files)⟩],
    addWarnings read files⟩

/-! ## Archive verification (`verify_archive`) -/

/-- `tarfile.getmember`: resolve a name to its last occurrence in the
archive (later entries supersede earlier ones). -/
def getmember (members : List Member) (name : SPath) : Option Member :=
  members.reverse.find? (fun m => decide (m.name = name))

/-- `tarfile.extractfile(name)` combined with the `KeyError` case:
`none` when no member has the name or the member is not a regular file. -/
def extractfile (members : List Member) (name : SPath) : Option (List Nat) :=
  match getmember members name with
  | none => none
  | some m => if m.isFile then some m.content else none

/-- `"MANIFEST.json" in tar.getnames()`. -/
def hasManifest (members : List Member) : Bool :=
  members.any (fun m => decide (m.name = manifestName))

/-- One iteration of the verification loop on the `(errors, checked)`
counters: skip `"ERROR"` entries; a missing or non-file member and a digest
mismatch bump `errors`; a matching digest bumps `checked`. -/
def verifyStep (members : List Member) (ec : Nat × Nat) (e : SPath × String) :
    Nat × Nat :=
  if e.2 = "ERROR" then ec
  else
    match extractfile members e.1 with
    | none => (ec.1 + 1, ec.2)
    | some bs =>
        if sha256hex bs = e.2 then (ec.1, ec.2 + 1) else (ec.1 + 1, ec.2)

/-- The verification loop, operationally: fold over the manifest entries
accumulating the `(errors, checked)` counters exactly as the source does. -/
def verifyFold (members : List Member) (m : Manifest) : Nat × Nat :=
  m.foldl (verifyStep members) (0, 0)

/-- What `verify_archive` is given: a missing archive file, a container
that fails to open as a compressed tar stream (`tarfile.TarError`), or the
member list of a successfully opened archive. -/
inductive VerifyInput where
  | missing
  | corrupt
  | opened (members : List Member)

/-- `verify_archive(archive_path)`.  `some b` is a normal boolean return;
`none` models the uncaught exception escaping `json.loads` when the
manifest member does not parse. -/
def verify_archive : VerifyInput → Option Bool
  | .missing => some false
  | .corrupt => some false
  | .opened members =>
      if !hasManifest members then some true
      else
        match extractfile members manifestName with
        | none => some false
        | some c =>
            (decodeManifest c).map fun m => decide ((verifyFold members m).1 = 0)

/-- Declarative classification of one manifest entry, in the spec's terms:
skipped (the `"ERROR"` sentinel), OK, MISMATCH (digest differs), or MISSING
(no regular-file member of that name). -/
inductive EntryClass where
  | skipped
  | ok
  | mismatch
  | missing
deriving Repr, DecidableEq

/-- Classify one manifest entry against the archive members. -/
def entryClass (members : List Member) (e : SPath × String) : EntryClass :=
  if e.2 = "ERROR" then .skipped
  else
    match extractfile members e.1 with
    | none => .missing
    | some bs => if sha256hex bs = e.2 then .ok else .mismatch

/-- A manifest entry names a member present in the archive whose recomputed
SHA-256 equals the recorded digest. -/
def entryVerified (members : List Member) (e : SPath × String) : Prop :=
  ∃ mem, getmember members e.1 = some mem ∧ mem.isFile = true ∧
    sha256hex mem.content = e.2

/-! ## Restore (`restore_archive`) -/

/-- The target path of one member, by archive-path prefix: `sessions/…` to
the resolved sessions directory (`none` when it cannot be resolved, which
skips the member with a warning), `config/…` to `~/.openclaw/`, anything
else under the project base directory. -/
def memberTarget (env : Env) (n : SPath) : Option SPath :=
  match n with
  | s :: r :: rs =>
      if s = "sessions" then
        match sessionsDirOf env with
        | some sd => some (sd ++ r :: rs)
        | none => none
      else if s = "config" then some (env.home ++ [".openclaw", r] ++ rs)
      else some (env.base ++ n)
  | _ => some (env.base ++ n)

/-- The file writes performed by the restore loop, in member order: the two
synthetic metadata members are skipped, unresolvable session members are
skipped, and only regular-file members are written. -/
def restoreWrites (env : Env) (members : List Member) :
    List (SPath × List Nat) :=
  members.filterMap fun mem =>
    if mem.name = manifestName ∨ mem.name = metaName then none
    else
      match memberTarget env mem.name with
      | none => none
      | some t => if mem.isFile then some (t, mem.content) else none

/-- The filesystem state after `restore_archive`, as a function of the
state before: each write unconditionally overwrites the target (parent
directories are created as needed, so a write never fails). -/
def restoreFs (env : Env) (members : List Member)
    (fs0 : SPath → Option (List Nat)) : SPath → Option (List Nat) :=
  (restoreWrites env members).foldl
    (fun fs wr => fun q => if q = wr.1 then some wr.2 else fs q) fs0

/-- The content of the last write to target `t`, if any. -/
def lastWrite (ws : List (SPath × List Nat)) (t : SPath) : Option (List Nat) :=
  (ws.reverse.find? (fun wr => decide (wr.1 = t))).map (·.2)

/-! ## Retention rotation (`rotate_backups`) -/

/-- One directory entry of the output directory. -/
structure Arch where
  name : String
  mtime : Int
deriving Repr, DecidableEq

/-- `glob("openclaw-backup-*.tar.gz")` membership for a filename (`*`
matches any character run; a filename contains no separator and the prefix
contains no dot, so prefix and suffix cannot overlap).  Written over the
character lists so that concrete instances evaluate in the kernel. -/
def matchesBackupPattern (s : String) : Bool :=
  "openclaw-backup-".data.isPrefixOf s.data &&
    ".tar.gz".data.isSuffixOf s.data

/-- `sorted(…, key=mtime, reverse=True)`: descending modification time. -/
def sortByMtimeDesc (l : List Arch) : List Arch :=
  l.mergeSort (fun a b => decide (b.mtime ≤ a.mtime))

/-- `rotate_backups(output_dir, keep)`: no-op when `keep <= 0` or when at
most `keep` archives match the pattern; otherwise delete every matching
archive after the `keep` most recent.  The result is the directory content
after the deletions (each deletion assumed to succeed). -/
def rotate_backups (dir : List Arch) (keep : Int) : List Arch :=
  if keep ≤ 0 then dir
  else
    let archives := sortByMtimeDesc (dir.filter (fun a => matchesBackupPattern a.name))
    if archives.length ≤ keep.toNat then dir
    else
      let toDelete := archives.drop keep.toNat
      dir.filter (fun a => decide (a ∉ toDelete))

/-! ## CLI validation (`main`) -/

/-- The mode/include resolution of `main`: `selective` requires an include
list and rejects identifiers absent from the registry; the other modes use
`MODE_CATEGORIES`.  `none` is the configuration-error exit. -/
def resolveCategories (mode : String) (incl : Option (List String)) :
    Option (List String) :=
  if mode = "selective" then
    match incl with
    | none => none
    | some cs => if cs.any (fun c => (lookupCat c).isNone) then none else some cs
  else (MODE_CATEGORIES.find? (fun e => decide (e.1 = mode))).map (·.2)

/-- Outcome of a backup-mode `main` invocation, up to archive creation:
configuration errors and the empty collection exit with status 1 before any
archive is produced; otherwise the archive is created.  (`--verify` /
`--restore` dispatch, date parsing of `--since`, and the subsequent
rotation are outside this definition; the `since` argument is the already
parsed cutoff.) -/
inductive MainOutcome where
  | exitConfigError
  | exitNoFiles
  | ok (result : BackupResult)

/-- The backup path of `main`: validate, collect, then create. -/
def main_backup (env : Env) (mode : String) (incl : Option (List String))
    (since : Option Int) : MainOutcome :=
  match resolveCategories mode incl with
  | none => .exitConfigError
  | some cats =>
      let files := collect_files env cats since
      if files.isEmpty then .exitNoFiles
      else .ok (create_backup env.read files
          (if mode = "selective" then "selective" else mode))

/-- The process exit status of a backup-mode invocation. -/
def exitCode : MainOutcome → Nat
  | .exitConfigError => 1
  | .exitNoFiles => 1
  | .ok _ => 0

/-! ## Properties of the deduplicating collection pass -/

/-- Reference form of the `seen`-set pass: keep the first element claiming
each archive-relative path not already in `seen`. -/
def dedupFirst : List CFile → List SPath → List CFile
  | [], _ => []
  | x :: xs, seen =>
      if x.2 ∈ seen then dedupFirst xs seen
      else x :: dedupFirst xs (x.2 :: seen)

/-- The `seen` set after a pass. -/
def seenAfter : List CFile → List SPath → List SPath
  | [], seen => seen
  | x :: xs, seen =>
      if x.2 ∈ seen then seenAfter xs seen
      else seenAfter xs (x.2 :: seen)

theorem foldl_dedupStep (l : List CFile) (acc : List CFile) (seen : List SPath) :
    l.foldl dedupStep (acc, seen) = (acc ++ dedupFirst l seen, seenAfter l seen) := by
  induction l generalizing acc seen with
  | nil => simp [dedupFirst, seenAfter]
  | cons x xs ih =>
      by_cases h : x.2 ∈ seen
      · simp [dedupStep, dedupFirst, seenAfter, h, ih]
      · simp [dedupStep, dedupFirst, seenAfter, h, ih]

theorem dedupFirst_append (l1 l2 : List CFile) (seen : List SPath) :
    dedupFirst (l1 ++ l2) seen =
      dedupFirst l1 seen ++ dedupFirst l2 (seenAfter l1 seen) := by
  induction l1 generalizing seen with
  | nil => simp [dedupFirst, seenAfter]
  | cons x xs ih =>
      by_cases h : x.2 ∈ seen
      · simp [dedupFirst, seenAfter, h, ih]
      · simp [dedupFirst, seenAfter, h, ih]

theorem seenAfter_append (l1 l2 : List CFile) (seen : List SPath) :
    seenAfter (l1 ++ l2) seen = seenAfter l2 (seenAfter l1 seen) := by
  induction l1 generalizing seen with
  | nil => simp [seenAfter]
  | cons x xs ih =>
      by_cases h : x.2 ∈ seen
      · simp [seenAfter, h, ih]
      · simp [seenAfter, h, ih]

/-- `collect_files` is the first-wins deduplication of the concatenation of
all category candidate lists, in category order. -/
theorem collect_files_eq_dedupFirst (env : Env) (cats : List String)
    (since : Option Int) :
    collect_files env cats since =
      dedupFirst (cats.flatMap (catCandidates env since)) [] := by
  suffices h : ∀ (cs : List String) (acc : List CFile) (seen : List SPath),
      cs.foldl (fun a cat => (catCandidates env since cat).foldl dedupStep a)
          (acc, seen) =
        (acc ++ dedupFirst (cs.flatMap (catCandidates env since)) seen,
         seenAfter (cs.flatMap (catCandidates env since)) seen) by
    simpa [collect_files] using (h cats [] []).symm ▸ rfl
  intro cs
  induction cs with
  | nil => intro acc seen; simp [dedupFirst, seenAfter]
  | cons c rest ih =>
      intro acc seen
      simp only [List.foldl_cons, foldl_dedupStep, List.flatMap_cons,
        dedupFirst_append, seenAfter_append, ih, List.append_assoc]

/-- Membership in `seenAfter`: the original `seen` plus all newly seen
archive-relative paths. -/
theorem mem_seenAfter (l : List CFile) (seen : List SPath) (a : SPath) :
    a ∈ seenAfter l seen ↔ a ∈ seen ∨ a ∈ l.map (·.2) := by
  induction l generalizing seen with
  | nil => simp [seenAfter]
  | cons x xs ih =>
      by_cases h : x.2 ∈ seen
      · rw [seenAfter, if_pos h, ih, List.map_cons]
        constructor
        · rintro (ha | ha)
          · exact Or.inl ha
          · exact Or.inr (List.mem_cons_of_mem _ ha)
        · rintro (ha | ha)
          · exact Or.inl ha
          · rcases List.mem_cons.mp ha with rfl | ha
            · exact Or.inl h
            · exact Or.inr ha
      · rw [seenAfter, if_neg h, ih, List.map_cons, List.mem_cons, List.mem_cons]
        tauto

/-- An element survives the pass iff its archive-relative path is fresh and
it is the first element of the list claiming that path. -/
theorem mem_dedupFirst (l : List CFile) (seen : List SPath) (x : CFile) :
    x ∈ dedupFirst l seen ↔
      x.2 ∉ seen ∧ l.find? (fun y => decide (y.2 = x.2)) = some x := by
  induction l generalizing seen with
  | nil => simp [dedupFirst]
  | cons y ys ih =>
      by_cases hxy : y.2 = x.2
      · by_cases h : y.2 ∈ seen
        · rw [dedupFirst, if_pos h, ih,
            List.find?_cons_of_pos _ (by simpa using hxy)]
          constructor
          · rintro ⟨hns, _⟩; exact absurd (hxy ▸ h) hns
          · rintro ⟨hns, _⟩; exact absurd (hxy ▸ h) hns
        · rw [dedupFirst, if_neg h, List.mem_cons, ih,
            List.find?_cons_of_pos _ (by simpa using hxy)]
          constructor
          · rintro (rfl | ⟨hns, _⟩)
            · exact ⟨hxy ▸ h, rfl⟩
            · exact absurd (List.mem_cons_self _ _) (hxy ▸ hns)
          · rintro ⟨hns, he⟩
            injection he with he; exact Or.inl he.symm
      · by_cases h : y.2 ∈ seen
        · rw [dedupFirst, if_pos h, ih,
            List.find?_cons_of_neg _ (by simpa using hxy)]
        · rw [dedupFirst, if_neg h, List.mem_cons, ih,
            List.find?_cons_of_neg _ (by simpa using hxy)]
          constructor
          · rintro (rfl | ⟨hns, hf⟩)
            · exact absurd rfl hxy
            · exact ⟨fun hmem => hns (List.mem_cons_of_mem _ hmem), hf⟩
          · rintro ⟨hns, hf⟩
            refine Or.inr ⟨fun hmem => ?_, hf⟩
            rcases List.mem_cons.mp hmem with he | hmem2
            · exact hxy he.symm
            · exact hns hmem2

/-- The surviving archive-relative paths are distinct and fresh. -/
theorem dedupFirst_arcs_nodup (l : List CFile) (seen : List SPath) :
    ((dedupFirst l seen).map (·.2)).Nodup ∧
      ∀ a ∈ (dedupFirst l seen).map (·.2), a ∉ seen := by
  induction l generalizing seen with
  | nil => simp [dedupFirst]
  | cons x xs ih =>
      by_cases h : x.2 ∈ seen
      · simpa [dedupFirst, h] using ih seen
      · obtain ⟨hnd, hfresh⟩ := ih (x.2 :: seen)
        refine ⟨?_, ?_⟩
        · simp only [dedupFirst, if_neg h, List.map_cons, List.nodup_cons]
          exact ⟨fun hmem => (hfresh _ hmem) (List.mem_cons_self _ _), hnd⟩
        · intro a ha
          simp only [dedupFirst, if_neg h, List.map_cons, List.mem_cons] at ha
          rcases ha with rfl | ha
          · exact h
          · exact fun hmem => (hfresh _ ha) (List.mem_cons_of_mem _ hmem)

/-- The archive-relative paths of one collection run are pairwise distinct. -/
theorem collect_files_arcs_nodup (env : Env) (cats : List String)
    (since : Option Int) :
    ((collect_files env cats since).map (·.2)).Nodup := by
  rw [collect_files_eq_dedupFirst]
  exact (dedupFirst_arcs_nodup _ _).1

/-! ## Properties of the manifest dictionary -/

theorem any_key_iff (m : Manifest) (k : SPath) :
    (m.any (fun e => decide (e.1 = k)) = true) ↔ k ∈ m.map (·.1) := by
  simp [List.any_eq_true, List.mem_map]

theorem dinsert_keys (m : Manifest) (k : SPath) (v : String) :
    (dinsert m k v).map (·.1) =
      if k ∈ m.map (·.1) then m.map (·.1) else m.map (·.1) ++ [k] := by
  by_cases h : k ∈ m.map (·.1)
  · rw [dinsert, if_pos ((any_key_iff m k).mpr h), if_pos h, List.map_map]
    refine List.map_congr_left fun e _ => ?_
    by_cases he : e.1 = k <;> simp [he]
  · rw [dinsert, if_neg (fun hb => h ((any_key_iff m k).mp hb)), if_neg h,
      List.map_append]
    rfl

theorem dinsert_keys_nodup (m : Manifest) (k : SPath) (v : String)
    (h : (m.map (·.1)).Nodup) : ((dinsert m k v).map (·.1)).Nodup := by
  rw [dinsert_keys]
  by_cases hk : k ∈ m.map (·.1)
  · simpa [hk] using h
  · rw [if_neg hk]
    exact List.Nodup.append h (List.nodup_singleton k)
      (fun a ha hb => by rw [List.mem_singleton.mp hb] at ha; exact hk ha)

theorem find?_overwrite_self (es : Manifest) (k : SPath) (v : String)
    (h : es.any (fun e => decide (e.1 = k)) = true) :
    List.find? (fun e => decide (e.1 = k))
        (es.map (fun e => if e.1 = k then (k, v) else e)) = some (k, v) := by
  induction es with
  | nil => simp at h
  | cons e es ih =>
      by_cases he : e.1 = k
      · rw [List.map_cons, if_pos he, List.find?_cons_of_pos _ (by simp)]
      · rw [List.map_cons, if_neg he,
          List.find?_cons_of_neg _ (by simpa using he)]
        exact ih (by simpa [List.any_cons, he] using h)

theorem find?_overwrite_ne (es : Manifest) (k kq : SPath) (v : String)
    (hne : kq ≠ k) :
    List.find? (fun e => decide (e.1 = kq))
        (es.map (fun e => if e.1 = k then (k, v) else e)) =
      List.find? (fun e => decide (e.1 = kq)) es := by
  induction es with
  | nil => rfl
  | cons e es ih =>
      by_cases he : e.1 = k
      · have hq : ¬ e.1 = kq := fun hh => hne (hh ▸ he ▸ rfl)
        rw [List.map_cons, if_pos he,
          List.find?_cons_of_neg _ (by simpa using fun hh => hne hh.symm),
          List.find?_cons_of_neg _ (by simpa using hq)]
        exact ih
      · by_cases hq : e.1 = kq
        · rw [List.map_cons, if_neg he,
            List.find?_cons_of_pos _ (by simpa using hq),
            List.find?_cons_of_pos _ (by simpa using hq)]
        · rw [List.map_cons, if_neg he,
            List.find?_cons_of_neg _ (by simpa using hq),
            List.find?_cons_of_neg _ (by simpa using hq)]
          exact ih

theorem dlookup_dinsert_self (m : Manifest) (k : SPath) (v : String) :
    dlookup (dinsert m k v) k = some v := by
  by_cases h : m.any (fun e => decide (e.1 = k)) = true
  · rw [dinsert, if_pos h, dlookup, find?_overwrite_self m k v h]
    rfl
  · rw [dinsert, if_neg h, dlookup, List.find?_append]
    have hfm : m.find? (fun e => decide (e.1 = k)) = none := by
      rw [List.find?_eq_none]
      intro e he hek
      exact h (List.any_eq_true.mpr ⟨e, he, hek⟩)
    rw [hfm, List.find?_cons_of_pos _ (by simp)]
    rfl

theorem dlookup_dinsert_ne (m : Manifest) (k kq : SPath) (v : String)
    (hne : kq ≠ k) : dlookup (dinsert m k v) kq = dlookup m kq := by
  by_cases h : m.any (fun e => decide (e.1 = k)) = true
  · rw [dinsert, if_pos h, dlookup, find?_overwrite_ne m k kq v hne]
    rfl
  · rw [dinsert, if_neg h, dlookup, List.find?_append]
    have hlast : List.find? (fun e => decide (e.1 = kq)) [(k, v)] = none := by
      rw [List.find?_eq_none]
      intro a ha
      rw [List.mem_singleton.mp ha]
      simpa using fun hh => hne hh.symm
    rw [hlast, Option.or_none]
    rfl

theorem mem_dinsert (m : Manifest) (k : SPath) (v : String) (e : SPath × String)
    (he : e ∈ dinsert m k v) : e ∈ m ∨ e = (k, v) := by
  by_cases h : m.any (fun e => decide (e.1 = k)) = true
  · rw [dinsert, if_pos h] at he
    rcases List.mem_map.mp he with ⟨x, hx, rfl⟩
    by_cases hxk : x.1 = k
    · simp [hxk]
    · simp only [if_neg hxk]
      exact Or.inl hx
  · rw [dinsert, if_neg h] at he
    rcases List.mem_append.mp he with hm | hm
    · exact Or.inl hm
    · exact Or.inr (List.mem_singleton.mp hm)

/-! ## Properties of `compute_manifest` -/

theorem compute_manifest_keys_nodup (read : SPath → Option (List Nat))
    (files : List CFile) : ((compute_manifest read files).map (·.1)).Nodup := by
  suffices h : ∀ (fs : List CFile) (m0 : Manifest), (m0.map (·.1)).Nodup →
      (((fs.foldl (fun m f => dinsert m f.2 (hashOrError read f.1)) m0)).map
        (·.1)).Nodup by
    exact h files [] (by simp)
  intro fs
  induction fs with
  | nil => intro m0 h0; exact h0
  | cons f fs ih =>
      intro m0 h0
      exact ih _ (dinsert_keys_nodup _ _ _ h0)

/-- Dictionary lookup after the manifest fold: the digest of the last file
in the list claiming the key, else whatever the accumulator held. -/
theorem dlookup_manifest_foldl (read : SPath → Option (List Nat))
    (files : List CFile) (m0 : Manifest) (a : SPath) :
    dlookup (files.foldl (fun m f => dinsert m f.2 (hashOrError read f.1)) m0) a =
      match files.reverse.find? (fun f => decide (f.2 = a)) with
      | some f => some (hashOrError read f.1)
      | none => dlookup m0 a := by
  induction files generalizing m0 with
  | nil => rfl
  | cons f fs ih =>
      rw [List.foldl_cons, ih, List.reverse_cons, List.find?_append]
      cases hf : fs.reverse.find? (fun f => decide (f.2 = a)) with
      | some g => rfl
      | none =>
          by_cases hfa : f.2 = a
          · rw [List.find?_cons_of_pos _ (by simpa using hfa)]
            subst hfa
            simpa using dlookup_dinsert_self m0 f.2 (hashOrError read f.1)
          · rw [List.find?_cons_of_neg _ (by simpa using hfa)]
            simpa using dlookup_dinsert_ne m0 f.2 a (hashOrError read f.1)
              (fun hh => hfa hh.symm)

theorem dlookup_compute_manifest (read : SPath → Option (List Nat))
    (files : List CFile) (a : SPath) :
    dlookup (compute_manifest read files) a =
      match files.reverse.find? (fun f => decide (f.2 = a)) with
      | some f => some (hashOrError read f.1)
      | none => none := by
  rw [compute_manifest, dlookup_manifest_foldl]
  cases files.reverse.find? (fun f => decide (f.2 = a)) <;> rfl

theorem dlookup_compute_manifest_isSome (read : SPath → Option (List Nat))
    (files : List CFile) (a : SPath) :
    (dlookup (compute_manifest read files) a).isSome ↔ a ∈ files.map (·.2) := by
  rw [dlookup_compute_manifest]
  cases hf : files.reverse.find? (fun f => decide (f.2 = a)) with
  | some g =>
      simp only [Option.isSome_some, true_iff]
      have hg := List.find?_some hf
      have hmem := List.mem_of_find?_eq_some hf
      rw [List.mem_reverse] at hmem
      exact List.mem_map.mpr ⟨g, hmem, by simpa using hg⟩
  | none =>
      simp only [Option.isSome_none, Bool.false_eq_true, false_iff]
      intro ha
      rcases List.mem_map.mp ha with ⟨g, hg, rfl⟩
      have := List.find?_eq_none.mp hf g (List.mem_reverse.mpr hg)
      simp at this

/-- Every manifest entry originates from some collected file. -/
theorem mem_compute_manifest (read : SPath → Option (List Nat))
    (files : List CFile) (e : SPath × String)
    (he : e ∈ compute_manifest read files) :
    ∃ f ∈ files, e = (f.2, hashOrError read f.1) := by
  suffices h : ∀ (fs : List CFile) (m0 : Manifest),
      e ∈ fs.foldl (fun m f => dinsert m f.2 (hashOrError read f.1)) m0 →
      e ∈ m0 ∨ ∃ f ∈ fs, e = (f.2, hashOrError read f.1) by
    rcases h files [] he with h0 | h0
    · simp at h0
    · exact h0
  intro fs
  induction fs with
  | nil => intro m0 h0; exact Or.inl h0
  | cons f fs ih =>
      intro m0 h0
      rcases ih _ h0 with h1 | ⟨g, hg, rfl⟩
      · rcases mem_dinsert _ _ _ _ h1 with h2 | h2
        · exact Or.inl h2
        · exact Or.inr ⟨f, List.mem_cons_self _ _, h2⟩
      · exact Or.inr ⟨g, List.mem_cons_of_mem _ hg, rfl⟩

/-- `find?` returns the unique element matching a predicate. -/
theorem find?_eq_of_countP_eq_one {α : Type} (l : List α) (p : α → Bool) (x : α)
    (hx : x ∈ l) (hpx : p x = true) (hc : l.countP p = 1) :
    l.find? p = some x := by
  induction l with
  | nil => simp at hx
  | cons a as ih =>
      by_cases hpa : p a = true
      · rw [List.find?_cons_of_pos _ hpa]
        rcases List.mem_cons.mp hx with rfl | hxas
        · rfl
        · rw [List.countP_cons, if_pos hpa] at hc
          have h0 : as.countP p = 0 := by omega
          exact absurd hpx (List.countP_eq_zero.mp h0 x hxas)
      · rw [List.find?_cons_of_neg _ hpa]
        rcases List.mem_cons.mp hx with rfl | hxas
        · exact absurd hpx hpa
        · rw [List.countP_cons, if_neg hpa] at hc
          exact ih hxas (by omega)

/-- An archive-relative path appearing in a list with pairwise-distinct
archive-relative paths is claimed by exactly one element. -/
theorem countP_arc_eq_one (files : List CFile) (p a : SPath)
    (hmem : (p, a) ∈ files) (hnd : (files.map (·.2)).Nodup) :
    files.countP (fun f => decide (f.2 = a)) = 1 := by
  induction files with
  | nil => simp at hmem
  | cons f fs ih =>
      rw [List.map_cons, List.nodup_cons] at hnd
      rcases List.mem_cons.mp hmem with rfl | hm
      · rw [List.countP_cons, if_pos (by simp)]
        have h0 : fs.countP (fun g => decide (g.2 = a)) = 0 := by
          rw [List.countP_eq_zero]
          intro g hg
          simp only [decide_eq_true_eq]
          intro hga
          exact hnd.1 (List.mem_map.mpr ⟨g, hg, hga⟩)
        omega
      · by_cases hfa : f.2 = a
        · have : a ∈ fs.map (·.2) := List.mem_map.mpr ⟨(p, a), hm, rfl⟩
          rw [hfa] at hnd
          exact absurd this hnd.1
        · rw [List.countP_cons, if_neg (by simpa using hfa)]
          simpa using ih hm hnd.2

/-- When the archive-relative paths are pairwise distinct, the manifest
value of each collected file is the digest of its own content. -/
theorem dlookup_compute_manifest_of_nodup (read : SPath → Option (List Nat))
    (files : List CFile) (p a : SPath) (hmem : (p, a) ∈ files)
    (hnd : (files.map (·.2)).Nodup) :
    dlookup (compute_manifest read files) a = some (hashOrError read p) := by
  rw [dlookup_compute_manifest]
  have hc : files.reverse.countP (fun f => decide (f.2 = a)) = 1 := by
    calc files.reverse.countP (fun f => decide (f.2 = a))
        = files.countP (fun f => decide (f.2 = a)) :=
          (List.reverse_perm files).countP_eq _
      _ = 1 := countP_arc_eq_one files p a hmem hnd
  rw [find?_eq_of_countP_eq_one files.reverse _ (p, a)
    (List.mem_reverse.mpr hmem) (by simp) hc]

/-! ## Shape of hex digests -/

theorem hexDigit_mem_hexTable (n : Nat) : hexDigit n ∈ hexTable := by
  have h : n % 16 < 16 := Nat.mod_lt _ (by norm_num)
  rw [hexDigit]
  generalize hk : n % 16 = k at h
  interval_cases k <;> decide

theorem length_flatMap_byteHex (l : List Nat) :
    (l.flatMap byteHex).length = 2 * l.length := by
  induction l with
  | nil => rfl
  | cons b bs ih =>
      rw [List.flatMap_cons, List.length_append, ih]
      simp [byteHex]
      omega

theorem sha256digest_length (msg : List Nat) : (sha256digest msg).length = 32 := by
  simp [sha256digest, wordBytes]

theorem sha256hex_length (msg : List Nat) : (sha256hex msg).length = 64 := by
  show ((sha256digest msg).flatMap byteHex).length = 64
  rw [length_flatMap_byteHex, sha256digest_length]

theorem sha256hex_chars (msg : List Nat) :
    ∀ c ∈ (sha256hex msg).data, c ∈ hexTable := by
  intro c hc
  rcases List.mem_flatMap.mp hc with ⟨b, _, hcb⟩
  rcases List.mem_cons.mp hcb with rfl | hcb
  · exact hexDigit_mem_hexTable _
  · rcases List.mem_singleton.mp hcb with rfl
    exact hexDigit_mem_hexTable _

theorem sha256hex_ne_ERROR (msg : List Nat) : sha256hex msg ≠ "ERROR" := by
  intro h
  have h2 := congrArg String.length h
  rw [sha256hex_length] at h2
  exact absurd h2 (by decide)

/-! ## Properties of archive verification -/

theorem extractfile_eq_some_iff (members : List Member) (a : SPath)
    (bs : List Nat) :
    extractfile members a = some bs ↔
      ∃ mem, getmember members a = some mem ∧ mem.isFile = true ∧
        mem.content = bs := by
  rw [extractfile]
  split
  · rename_i hg
    simp [hg]
  · rename_i mem hg
    by_cases hf : mem.isFile = true
    · rw [if_pos hf]
      simp only [hg, Option.some.injEq]
      constructor
      · intro h; exact ⟨mem, rfl, hf, h⟩
      · rintro ⟨mem2, he, _, hc⟩
        rw [he]
        exact hc
    · rw [if_neg hf]
      simp only [hg]
      constructor
      · intro h; exact absurd h (by simp)
      · rintro ⟨mem2, he, hf2, _⟩
        injection he with he
        rw [← he] at hf2
        exact absurd hf2 hf

theorem entryClass_of_none (members : List Member) (e : SPath × String)
    (h1 : e.2 ≠ "ERROR") (hx : extractfile members e.1 = none) :
    entryClass members e = EntryClass.missing := by
  rw [entryClass, if_neg h1, hx]

theorem entryClass_of_some (members : List Member) (e : SPath × String)
    (bs : List Nat) (h1 : e.2 ≠ "ERROR")
    (hx : extractfile members e.1 = some bs) :
    entryClass members e =
      if sha256hex bs = e.2 then EntryClass.ok else EntryClass.mismatch := by
  rw [entryClass, if_neg h1, hx]

theorem entryClass_ok_iff (members : List Member) (e : SPath × String)
    (h1 : e.2 ≠ "ERROR") :
    entryClass members e = EntryClass.ok ↔ entryVerified members e := by
  cases hx : extractfile members e.1 with
  | none =>
      rw [entryClass_of_none members e h1 hx]
      constructor
      · intro h; exact absurd h (by decide)
      · rintro ⟨mem, hg, hf, _⟩
        have h2 : extractfile members e.1 = some mem.content :=
          (extractfile_eq_some_iff members e.1 mem.content).mpr ⟨mem, hg, hf, rfl⟩
        rw [hx] at h2
        exact absurd h2 (by simp)
  | some bs =>
      rw [entryClass_of_some members e bs h1 hx]
      rcases (extractfile_eq_some_iff members e.1 bs).mp hx with ⟨mem, hg, hf, hc⟩
      by_cases hsha : sha256hex bs = e.2
      · rw [if_pos hsha]
        exact iff_of_true rfl ⟨mem, hg, hf, by rw [hc, hsha]⟩
      · rw [if_neg hsha]
        constructor
        · intro h; exact absurd h (by decide)
        · rintro ⟨mem2, hg2, hf2, hsha2⟩
          rw [hg] at hg2
          injection hg2 with hg2
          rw [← hg2] at hsha2
          rw [hc] at hsha2
          exact absurd hsha2 hsha

/-- The loop step, written through the declarative classification. -/
theorem verifyStep_eq (members : List Member) (ec : Nat × Nat)
    (e : SPath × String) :
    verifyStep members ec e =
      match entryClass members e with
      | EntryClass.skipped => ec
      | EntryClass.missing => (ec.1 + 1, ec.2)
      | EntryClass.mismatch => (ec.1 + 1, ec.2)
      | EntryClass.ok => (ec.1, ec.2 + 1) := by
  by_cases h1 : e.2 = "ERROR"
  · rw [verifyStep, if_pos h1, entryClass, if_pos h1]
  · cases hx : extractfile members e.1 with
    | none =>
        rw [verifyStep, if_neg h1, hx, entryClass_of_none members e h1 hx]
    | some bs =>
        rw [verifyStep, if_neg h1, hx, entryClass_of_some members e bs h1 hx]
        by_cases hsha : sha256hex bs = e.2
        · show (if sha256hex bs = e.2 then (ec.1, ec.2 + 1) else (ec.1 + 1, ec.2)) =
            match (if sha256hex bs = e.2 then EntryClass.ok else EntryClass.mismatch) with
            | EntryClass.skipped => ec
            | EntryClass.missing => (ec.1 + 1, ec.2)
            | EntryClass.mismatch => (ec.1 + 1, ec.2)
            | EntryClass.ok => (ec.1, ec.2 + 1)
          rw [if_pos hsha, if_pos hsha]
        · show (if sha256hex bs = e.2 then (ec.1, ec.2 + 1) else (ec.1 + 1, ec.2)) =
            match (if sha256hex bs = e.2 then EntryClass.ok else EntryClass.mismatch) with
            | EntryClass.skipped => ec
            | EntryClass.missing => (ec.1 + 1, ec.2)
            | EntryClass.mismatch => (ec.1 + 1, ec.2)
            | EntryClass.ok => (ec.1, ec.2 + 1)
          rw [if_neg hsha, if_neg hsha]

/-- The operational counters equal the declarative counts: `errors` counts
MISMATCH and MISSING entries, `checked` counts OK entries. -/
theorem verifyFold_spec (members : List Member) (m : Manifest) :
    verifyFold members m =
      (m.countP (fun e => decide (entryClass members e = EntryClass.mismatch ∨
          entryClass members e = EntryClass.missing)),
       m.countP (fun e => decide (entryClass members e = EntryClass.ok))) := by
  suffices h : ∀ (mm : Manifest) (ec : Nat × Nat),
      mm.foldl (verifyStep members) ec
      = (ec.1 + mm.countP (fun e => decide (entryClass members e = EntryClass.mismatch ∨
            entryClass members e = EntryClass.missing)),
         ec.2 + mm.countP (fun e => decide (entryClass members e = EntryClass.ok))) by
    rw [verifyFold, h m (0, 0)]
    simp
  intro mm
  induction mm with
  | nil => intro ec; simp
  | cons e es ih =>
      intro ec
      rw [List.foldl_cons, verifyStep_eq, List.countP_cons, List.countP_cons]
      cases hcl : entryClass members e
      all_goals rw [ih]
      all_goals refine Prod.ext ?_ ?_
      all_goals try simp
      all_goals omega

theorem hasManifest_of_extractfile (members : List Member) (c : List Nat)
    (h : extractfile members manifestName = some c) :
    hasManifest members = true := by
  rcases (extractfile_eq_some_iff members manifestName c).mp h with ⟨mem, hg, _, _⟩
  have hmem := List.mem_of_find?_eq_some hg
  have hp := List.find?_some hg
  rw [List.mem_reverse] at hmem
  exact List.any_eq_true.mpr ⟨mem, hmem, hp⟩

theorem verify_archive_opened_eq (members : List Member) (c : List Nat)
    (m : Manifest) (h1 : extractfile members manifestName = some c)
    (h2 : decodeManifest c = some m) :
    verify_archive (.opened members) =
      some (decide ((verifyFold members m).1 = 0)) := by
  rw [verify_archive, hasManifest_of_extractfile members c h1]
  simp only [Bool.not_true, Bool.false_eq_true, if_false, h1, h2]
  rfl

/-! ## Properties of restore -/

/-- Whether an archive name falls in the `sessions/` namespace
(`name.startswith("sessions/")` on the slash-joined form). -/
def isSessionName : SPath → Bool
  | s :: _ :: _ => s = "sessions"
  | _ => false

theorem memberTarget_sessions (env : Env) (r : String) (rs : List String) :
    memberTarget env ("sessions" :: r :: rs) =
      (sessionsDirOf env).map (fun sd => sd ++ r :: rs) := by
  rw [memberTarget]
  cases h : sessionsDirOf env with
  | none => simp
  | some sd => simp

theorem memberTarget_config (env : Env) (r : String) (rs : List String) :
    memberTarget env ("config" :: r :: rs) =
      some (env.home ++ [".openclaw", r] ++ rs) := by
  rw [memberTarget, if_neg (by decide), if_pos rfl]

theorem memberTarget_other (env : Env) (n : SPath)
    (h1 : ∀ r rs, n ≠ "sessions" :: r :: rs)
    (h2 : ∀ r rs, n ≠ "config" :: r :: rs) :
    memberTarget env n = some (env.base ++ n) := by
  match n with
  | [] => rfl
  | [s] => rfl
  | s :: r :: rs =>
      rw [memberTarget]
      have hs : ¬ s = "sessions" := fun hh => h1 r rs (by rw [hh])
      have hc : ¬ s = "config" := fun hh => h2 r rs (by rw [hh])
      rw [if_neg hs, if_neg hc]

theorem memberTarget_isSome_iff (env : Env) (n : SPath) :
    (memberTarget env n).isSome = true ↔
      (isSessionName n = true → (sessionsDirOf env).isSome = true) := by
  match n with
  | [] => simp [memberTarget, isSessionName]
  | [s] => simp [memberTarget, isSessionName]
  | s :: r :: rs =>
      by_cases hs : s = "sessions"
      · subst hs
        rw [memberTarget_sessions]
        cases h : sessionsDirOf env with
        | none => simp [isSessionName]
        | some sd => simp [isSessionName]
      · rw [memberTarget]
        by_cases hc : s = "config"
        · subst hc
          simp [isSessionName]
        · rw [if_neg hs, if_neg hc]
          simp [isSessionName, hs]

/-- Membership in the restore write list. -/
theorem mem_restoreWrites (env : Env) (members : List Member) (t : SPath)
    (c : List Nat) :
    (t, c) ∈ restoreWrites env members ↔
      ∃ mem ∈ members, ¬ (mem.name = manifestName ∨ mem.name = metaName) ∧
        memberTarget env mem.name = some t ∧ mem.isFile = true ∧
        mem.content = c := by
  rw [restoreWrites, List.mem_filterMap]
  constructor
  · rintro ⟨mem, hmem, hf⟩
    by_cases hmeta : mem.name = manifestName ∨ mem.name = metaName
    · rw [if_pos hmeta] at hf; exact absurd hf (by simp)
    · rw [if_neg hmeta] at hf
      cases ht : memberTarget env mem.name with
      | none => rw [ht] at hf; exact absurd hf (by simp)
      | some t2 =>
          rw [ht] at hf
          have hf2 : (if mem.isFile = true then some (t2, mem.content)
              else none) = some (t, c) := hf
          by_cases hisf : mem.isFile = true
          · rw [if_pos hisf] at hf2
            injection hf2 with hf2
            injection hf2 with hf21 hf22
            exact ⟨mem, hmem, hmeta, by rw [ht, hf21], hisf, hf22⟩
          · rw [if_neg hisf] at hf2; exact absurd hf2 (by simp)
  · rintro ⟨mem, hmem, hmeta, ht, hisf, hc⟩
    refine ⟨mem, hmem, ?_⟩
    rw [if_neg hmeta, ht]
    show (if mem.isFile = true then some (t, mem.content) else none) = some (t, c)
    rw [if_pos hisf, hc]

/-- With no resolvable sessions directory, the restore writes are exactly
those of the non-session members: session members are skipped, the rest of
the restore is unaffected. -/
theorem restoreWrites_no_sessions (env : Env) (members : List Member)
    (h : sessionsDirOf env = none) :
    restoreWrites env members =
      restoreWrites env
        (members.filter (fun mem => !(isSessionName mem.name))) := by
  rw [restoreWrites, restoreWrites]
  induction members with
  | nil => rfl
  | cons mem rest ih =>
      rw [List.filterMap_cons]
      by_cases hsess : isSessionName mem.name = true
      · have ht : memberTarget env mem.name = none := by
          match hn : mem.name with
          | s :: r :: rs =>
              have hs : s = "sessions" := by
                rw [hn] at hsess
                simpa [isSessionName] using hsess
              subst hs
              rw [memberTarget_sessions, h]
              rfl
          | [] => rw [hn] at hsess; simp [isSessionName] at hsess
          | [s] => rw [hn] at hsess; simp [isSessionName] at hsess
        have hskip :
            (if mem.name = manifestName ∨ mem.name = metaName then none
             else
               match memberTarget env mem.name with
               | none => none
               | some t =>
                   if mem.isFile = true then some (t, mem.content) else none)
            = (none : Option (SPath × List Nat)) := by
          by_cases hmeta : mem.name = manifestName ∨ mem.name = metaName
          · rw [if_pos hmeta]
          · rw [if_neg hmeta, ht]
        rw [hskip, List.filter_cons_of_neg (by simpa using hsess)]
        exact ih
      · rw [List.filter_cons_of_pos (by simpa using hsess)]
        rw [List.filterMap_cons, ih]

/-- The final state of one target path: the last write to it wins; a path
never written keeps its previous content. -/
theorem restoreFs_eq (env : Env) (members : List Member)
    (fs0 : SPath → Option (List Nat)) (t : SPath) :
    restoreFs env members fs0 t =
      match lastWrite (restoreWrites env members) t with
      | some c => some c
      | none => fs0 t := by
  rw [restoreFs]
  generalize restoreWrites env members = ws
  induction ws generalizing fs0 with
  | nil => rfl
  | cons w ws ih =>
      rw [List.foldl_cons, ih]
      have hlw : lastWrite (w :: ws) t =
          ((ws.reverse.find? (fun wr => decide (wr.1 = t))).or
            (List.find? (fun wr => decide (wr.1 = t)) [w])).map (·.2) := by
        rw [lastWrite, List.reverse_cons, List.find?_append]
      rw [hlw]
      cases hf : ws.reverse.find? (fun wr => decide (wr.1 = t)) with
      | some g => rw [lastWrite, hf]; rfl
      | none =>
          rw [lastWrite, hf]
          by_cases hw : w.1 = t
          · rw [List.find?_cons_of_pos _ (by simpa using hw)]
            simp [hw]
          · rw [List.find?_cons_of_neg _ (by simpa using hw)]
            simp only [Option.or_none, List.find?_nil]
            have : ¬ t = w.1 := fun hh => hw hh.symm
            simp [this]

/-! ## Properties of retention rotation -/

theorem sortByMtimeDesc_perm (l : List Arch) : (sortByMtimeDesc l).Perm l :=
  List.mergeSort_perm l _

theorem sortByMtimeDesc_sorted (l : List Arch) :
    List.Pairwise (fun a b => b.mtime ≤ a.mtime) (sortByMtimeDesc l) := by
  have h := @List.sorted_mergeSort Arch
    (fun a b : Arch => decide (b.mtime ≤ a.mtime))
    (fun a b c hab hbc => by
      simp only [decide_eq_true_eq] at hab hbc ⊢
      omega)
    (fun a b => by
      simp only [Bool.or_eq_true, decide_eq_true_eq]
      omega)
    l
  exact h.imp (fun hab => by simpa using hab)

theorem pairwise_lt_of_le_nodup (l : List Arch)
    (hs : List.Pairwise (fun a b => b.mtime ≤ a.mtime) l)
    (hnd : (l.map (·.mtime)).Nodup) :
    List.Pairwise (fun a b => b.mtime < a.mtime) l := by
  have hne : List.Pairwise (fun a b : Arch => a.mtime ≠ b.mtime) l :=
    List.pairwise_map.mp hnd
  exact (hs.and hne).imp (fun hab => lt_of_le_of_ne hab.1 (fun hh => hab.2 hh.symm))

/-- In a strictly mtime-descending list, membership of the first `k`
entries is equivalent to having fewer than `k` more recent entries. -/
theorem mem_take_iff_rank (l : List Arch)
    (hs : List.Pairwise (fun a b => b.mtime < a.mtime) l) :
    ∀ (k : Nat) (a : Arch), a ∈ l →
      (a ∈ l.take k ↔ l.countP (fun b => decide (a.mtime < b.mtime)) < k) := by
  induction l with
  | nil => intro k a ha; simp at ha
  | cons x xs ih =>
      rcases List.pairwise_cons.mp hs with ⟨hx, hxs⟩
      intro k a ha
      cases k with
      | zero => simp
      | succ k =>
          rw [List.take_succ_cons]
          rcases List.mem_cons.mp ha with rfl | haxs
          · have hc0 : xs.countP (fun b => decide (a.mtime < b.mtime)) = 0 := by
              rw [List.countP_eq_zero]
              intro b hb
              simp only [decide_eq_true_eq]
              have := hx b hb
              omega
            rw [List.countP_cons, hc0]
            simp
          · have hax : a.mtime < x.mtime := hx a haxs
            rw [List.countP_cons, if_pos (by simpa using hax)]
            have hne : a ≠ x := fun he => by rw [he] at hax; omega
            simp only [List.mem_cons]
            constructor
            · rintro (rfl | hmem)
              · exact absurd rfl hne
              · have := (ih hxs k a haxs).mp hmem
                omega
            · intro hcount
              exact Or.inr ((ih hxs k a haxs).mpr (by omega))

/-! ## Provenance of collected files -/

/-- The directory parts of every glob pattern in the registry. -/
def patDirs : List SPath := CATEGORIES.flatMap (fun kc => kc.2.paths.map (·.1))

theorem patDirs_shape :
    ∀ d ∈ patDirs, d.head? = some "memory" ∧ d ≠ [] ∧
      d.getLast? ≠ some ".openclaw" := by decide

theorem collect_files_subset (env : Env) (cats : List String)
    (since : Option Int) (f : CFile) (hf : f ∈ collect_files env cats since) :
    ∃ cat ∈ cats, f ∈ catCandidates env since cat := by
  rw [collect_files_eq_dedupFirst] at hf
  have h2 := (mem_dedupFirst _ _ _).mp hf
  have h3 := List.mem_of_find?_eq_some h2.2
  rcases List.mem_flatMap.mp h3 with ⟨cat, hcat, hmem⟩
  exact ⟨cat, hcat, hmem⟩

theorem mem_sessionCandidates (env : Env) (since : Option Int) (f : CFile)
    (hf : f ∈ sessionCandidates env since) :
    ∃ sd sf, sessionsDirOf env = some sd ∧ sf ∈ env.sessFiles ∧
      sf.isFile = true ∧ f = (sd ++ sf.rel, "sessions" :: sf.rel) := by
  rw [sessionCandidates] at hf
  cases hsd : sessionsDirOf env with
  | none =>
      rw [hsd] at hf
      exact absurd hf (List.not_mem_nil f)
  | some sd =>
      rw [hsd] at hf
      have hf2 : f ∈ env.sessFiles.filterMap (fun sf =>
          if !sf.isFile then none
          else
            match since with
            | some s =>
                if sf.isJsonl then
                  match sf.mtime with
                  | none => none
                  | some t =>
                      if t < s then none
                      else some (sd ++ sf.rel, "sessions" :: sf.rel)
                else some (sd ++ sf.rel, "sessions" :: sf.rel)
            | none => some (sd ++ sf.rel, "sessions" :: sf.rel)) := hf
      rcases List.mem_filterMap.mp hf2 with ⟨sf, hsf, hkeep⟩
      refine ⟨sd, sf, rfl, hsf, ?_⟩
      by_cases hfile : sf.isFile = true
      · rw [if_neg (by simpa using hfile)] at hkeep
        refine ⟨hfile, ?_⟩
        cases hs : since with
        | none =>
            rw [hs] at hkeep
            have hkeep2 : some (sd ++ sf.rel, "sessions" :: sf.rel) = some f :=
              hkeep
            injection hkeep2 with h
            exact h.symm
        | some s =>
            rw [hs] at hkeep
            by_cases hjs : sf.isJsonl = true
            · have hkeep2 : (match sf.mtime with
                  | none => none
                  | some t =>
                      if t < s then none
                      else some (sd ++ sf.rel, "sessions" :: sf.rel)) = some f := by
                have hkeep3 : (if sf.isJsonl then
                    (match sf.mtime with
                     | none => none
                     | some t =>
                         if t < s then none
                         else some (sd ++ sf.rel, "sessions" :: sf.rel))
                    else some (sd ++ sf.rel, "sessions" :: sf.rel)) = some f := hkeep
                rwa [if_pos hjs] at hkeep3
              cases hmt : sf.mtime with
              | none => rw [hmt] at hkeep2; exact absurd hkeep2 (by simp)
              | some t =>
                  rw [hmt] at hkeep2
                  have hkeep4 : (if t < s then none
                      else some (sd ++ sf.rel, "sessions" :: sf.rel)) = some f :=
                    hkeep2
                  by_cases hts : t < s
                  · rw [if_pos hts] at hkeep4; exact absurd hkeep4 (by simp)
                  · rw [if_neg hts] at hkeep4
                    injection hkeep4 with h
                    exact h.symm
            · have hkeep3 : (if sf.isJsonl then
                  (match sf.mtime with
                   | none => none
                   | some t =>
                       if t < s then none
                       else some (sd ++ sf.rel, "sessions" :: sf.rel))
                  else some (sd ++ sf.rel, "sessions" :: sf.rel)) = some f := hkeep
              rw [if_neg hjs] at hkeep3
              injection hkeep3 with h
              exact h.symm
      · rw [if_pos (by simpa using hfile)] at hkeep
        exact absurd hkeep (by simp)

theorem mem_configCandidates (env : Env) (f : CFile)
    (hf : f ∈ configCandidates env) :
    f = (env.home ++ [".openclaw", "config.json"], ["config", "config.json"]) ∨
    f = (env.home ++ [".openclaw", "settings.json"], ["config", "settings.json"]) ∨
    f = (env.base ++ ["openclaw.mjs"], ["config", "openclaw.mjs"]) := by
  rw [configCandidates] at hf
  rcases List.mem_filterMap.mp hf with ⟨pc, hpc, hkeep⟩
  by_cases hex : env.isFile pc.1 = true
  · rw [if_pos hex] at hkeep
    injection hkeep with hkeep
    simp only [List.mem_cons, List.not_mem_nil, or_false] at hpc
    rcases hpc with rfl | rfl | rfl
    · exact Or.inl hkeep.symm
    · exact Or.inr (Or.inl hkeep.symm)
    · exact Or.inr (Or.inr hkeep.symm)
  · rw [if_neg hex] at hkeep
    exact absurd hkeep (by simp)

theorem mem_globCandidates (env : Env) (c : Cat) (f : CFile)
    (hf : f ∈ globCandidates env c) :
    ∃ pat ∈ c.paths, ∃ n, f = (env.base ++ pat.1 ++ [n], pat.1 ++ [n]) := by
  rw [globCandidates] at hf
  rcases List.mem_flatMap.mp hf with ⟨pat, hpat, hmem⟩
  rcases List.mem_map.mp hmem with ⟨n, _, rfl⟩
  exact ⟨pat, hpat, n, rfl⟩

theorem mem_catCandidates (env : Env) (since : Option Int) (cat : String)
    (f : CFile) (hf : f ∈ catCandidates env since cat) :
    f ∈ sessionCandidates env since ∨ f ∈ configCandidates env ∨
    ∃ c, lookupCat cat = some c ∧ f ∈ globCandidates env c := by
  rw [catCandidates] at hf
  by_cases h1 : cat = "sessions"
  · rw [if_pos h1] at hf; exact Or.inl hf
  · rw [if_neg h1] at hf
    by_cases h2 : cat = "config"
    · rw [if_pos h2] at hf; exact Or.inr (Or.inl hf)
    · rw [if_neg h2] at hf
      cases hl : lookupCat cat with
      | none =>
          rw [hl] at hf
          exact absurd hf (List.not_mem_nil f)
      | some c =>
          rw [hl] at hf
          exact Or.inr (Or.inr ⟨c, rfl, hf⟩)

theorem lookupCat_paths_sub (cat : String) (c : Cat) (hl : lookupCat cat = some c) :
    ∀ pat ∈ c.paths, pat.1 ∈ patDirs := by
  intro pat hpat
  rw [lookupCat] at hl
  cases hfind : CATEGORIES.find? (fun e => decide (e.1 = cat)) with
  | none => rw [hfind] at hl; exact absurd hl (by simp)
  | some kc =>
      rw [hfind] at hl
      injection hl with hl
      have hmem := List.mem_of_find?_eq_some hfind
      have hpat2 : pat ∈ kc.2.paths := by
        have : kc.2 = c := hl
        rw [this]
        exact hpat
      rw [patDirs]
      exact List.mem_flatMap.mpr ⟨kc, hmem, List.mem_map.mpr ⟨pat, hpat2, rfl⟩⟩

/-- Every collected file is a session file under the resolved sessions
directory, one of the three config candidates, or a glob match under one of
the registry pattern directories. -/
theorem collect_files_provenance (env : Env) (cats : List String)
    (since : Option Int) (f : CFile) (hf : f ∈ collect_files env cats since) :
    (∃ sd sf, sessionsDirOf env = some sd ∧ sf ∈ env.sessFiles ∧
        f = (sd ++ sf.rel, "sessions" :: sf.rel)) ∨
    f = (env.home ++ [".openclaw", "config.json"], ["config", "config.json"]) ∨
    f = (env.home ++ [".openclaw", "settings.json"], ["config", "settings.json"]) ∨
    f = (env.base ++ ["openclaw.mjs"], ["config", "openclaw.mjs"]) ∨
    (∃ d n, d ∈ patDirs ∧ f = (env.base ++ d ++ [n], d ++ [n])) := by
  rcases collect_files_subset env cats since f hf with ⟨cat, _, hmem⟩
  rcases mem_catCandidates env since cat f hmem with hs | hc | ⟨c, hl, hg⟩
  · rcases mem_sessionCandidates env since f hs with ⟨sd, sf, h1, h2, _, h4⟩
    exact Or.inl ⟨sd, sf, h1, h2, h4⟩
  · rcases mem_configCandidates env f hc with h | h | h
    · exact Or.inr (Or.inl h)
    · exact Or.inr (Or.inr (Or.inl h))
    · exact Or.inr (Or.inr (Or.inr (Or.inl h)))
  · rcases mem_globCandidates env c f hg with ⟨pat, hpat, n, rfl⟩
    exact Or.inr (Or.inr (Or.inr (Or.inr
      ⟨pat.1, n, lookupCat_paths_sub cat c hl pat hpat, rfl⟩)))

/-! ## Restore targets of collected files -/

/-- The archive-relative path of the project-level config file, the one
collected file whose restore target differs from its source. -/
def mjsArc : SPath := ["config", "openclaw.mjs"]

/-- The restore target of the project-level config file. -/
def mjsTarget (env : Env) : SPath := env.home ++ [".openclaw", "openclaw.mjs"]

theorem append_pair_inj {α : Type} (l1 l2 : List α) (x y u v : α)
    (h : l1 ++ [x, y] = l2 ++ [u, v]) : x = u ∧ y = v := by
  have h2 := congrArg List.reverse h
  simp only [List.reverse_append, List.reverse_cons, List.reverse_nil,
    List.nil_append, List.cons_append] at h2
  injection h2 with h21 h22
  injection h22 with h22
  exact ⟨h22, h21⟩

theorem collect_arc_head (env : Env) (cats : List String) (since : Option Int)
    (f : CFile) (hf : f ∈ collect_files env cats since) :
    f.2.head? = some "sessions" ∨ f.2.head? = some "config" ∨
      f.2.head? = some "memory" := by
  rcases collect_files_provenance env cats since f hf with
    ⟨sd, sf, _, _, rfl⟩ | rfl | rfl | rfl | ⟨d, n, hd, rfl⟩
  · exact Or.inl rfl
  · exact Or.inr (Or.inl rfl)
  · exact Or.inr (Or.inl rfl)
  · exact Or.inr (Or.inl rfl)
  · refine Or.inr (Or.inr ?_)
    rcases patDirs_shape d hd with ⟨hhead, hne, _⟩
    match d, hne with
    | x :: xs, _ =>
        simp only [List.head?_cons, Option.some.injEq] at hhead
        simp [hhead]

theorem collect_arc_ne_meta (env : Env) (cats : List String) (since : Option Int)
    (f : CFile) (hf : f ∈ collect_files env cats since) :
    f.2 ≠ manifestName ∧ f.2 ≠ metaName := by
  rcases collect_arc_head env cats since f hf with h | h | h
  all_goals constructor
  all_goals intro he
  all_goals rw [he] at h
  all_goals exact absurd h (by decide)

/-- The restore target of every collected file: the source path itself,
except for the project-level config file, which goes under the home
configuration directory. -/
theorem collect_target (env : Env) (cats : List String) (since : Option Int)
    (hsess : ∀ sf ∈ env.sessFiles, sf.rel ≠ [])
    (f : CFile) (hf : f ∈ collect_files env cats since) :
    (f.2 ≠ mjsArc → memberTarget env f.2 = some f.1) ∧
    (f.2 = mjsArc → memberTarget env f.2 = some (mjsTarget env) ∧
      f.1 = env.base ++ ["openclaw.mjs"]) := by
  rcases collect_files_provenance env cats since f hf with
    ⟨sd, sf, hsd, hsf, rfl⟩ | rfl | rfl | rfl | ⟨d, n, hd, rfl⟩
  · constructor
    · intro _
      show memberTarget env ("sessions" :: sf.rel) = some (sd ++ sf.rel)
      rcases hrel : sf.rel with _ | ⟨r, rs⟩
      · exact absurd hrel (hsess sf hsf)
      · rw [memberTarget_sessions, hsd]
        rfl
    · intro he
      have h5 : "sessions" = "config" := by
        have h6 := congrArg List.head? he
        simpa [mjsArc] using h6
      exact absurd h5 (by decide)
  · constructor
    · intro _
      show memberTarget env ("config" :: "config.json" :: []) = _
      rw [memberTarget_config]
      simp
    · intro he
      have : "config.json" = "openclaw.mjs" := by
        injection he with _ h2
        injection h2 with h2
      exact absurd this (by decide)
  · constructor
    · intro _
      show memberTarget env ("config" :: "settings.json" :: []) = _
      rw [memberTarget_config]
      simp
    · intro he
      have : "settings.json" = "openclaw.mjs" := by
        injection he with _ h2
        injection h2 with h2
      exact absurd this (by decide)
  · constructor
    · intro he
      exact absurd rfl he
    · intro _
      constructor
      · show memberTarget env ("config" :: "openclaw.mjs" :: []) = _
        rw [memberTarget_config]
        simp [mjsTarget]
      · rfl
  · rcases patDirs_shape d hd with ⟨hhead, hne, _⟩
    have hshape : ∀ r rs, d ++ [n] ≠ "sessions" :: r :: rs ∧
        d ++ [n] ≠ "config" :: r :: rs := by
      intro r rs
      match d, hne with
      | x :: xs, _ =>
          simp only [List.head?_cons, Option.some.injEq] at hhead
          subst hhead
          constructor
          · intro he
            rw [List.cons_append] at he
            injection he with h1 _
            exact absurd h1 (by decide)
          · intro he
            rw [List.cons_append] at he
            injection he with h1 _
            exact absurd h1 (by decide)
    constructor
    · intro _
      rw [memberTarget_other env (d ++ [n]) (fun r rs => (hshape r rs).1)
        (fun r rs => (hshape r rs).2), List.append_assoc]
    · intro he
      match d, hne with
      | x :: xs, _ =>
          simp only [List.head?_cons, Option.some.injEq] at hhead
          subst hhead
          rw [List.cons_append] at he
          injection he with h1 _
          exact absurd h1 (by decide)

/-- The source path of a collected file other than the project-level config
file never equals the restore target of the project-level config file. -/
theorem collect_src_ne_mjsTarget (env : Env) (cats : List String)
    (since : Option Int) (f : CFile) (hf : f ∈ collect_files env cats since)
    (hne : f.2 ≠ mjsArc) : f.1 ≠ mjsTarget env := by
  rcases collect_files_provenance env cats since f hf with
    ⟨sd, sf, hsd, hsf, rfl⟩ | rfl | rfl | rfl | ⟨d, n, hd, rfl⟩
  · intro he
    have he2 : sd ++ sf.rel = env.home ++ [".openclaw", "openclaw.mjs"] := he
    rw [sessionsDirOf] at hsd
    cases ha : env.agent with
    | none => rw [ha] at hsd; exact absurd hsd (by simp)
    | some agent =>
        rw [ha] at hsd
        have hsd2 : env.home ++ [".openclaw", "agents", agent, "sessions"] = sd := by
          have h5 : (some (env.home ++ [".openclaw", "agents", agent, "sessions"])
              : Option SPath) = some sd := hsd
          injection h5
        rw [← hsd2, List.append_assoc] at he2
        have h3 := List.append_cancel_left he2
        rw [List.cons_append] at h3
        injection h3 with _ h3
        rw [List.cons_append] at h3
        injection h3 with h3 _
        exact absurd h3 (by decide)
  · intro he
    have he2 : env.home ++ [".openclaw", "config.json"] =
        env.home ++ [".openclaw", "openclaw.mjs"] := he
    have h3 := List.append_cancel_left he2
    injection h3 with _ h3
    injection h3 with h3 _
    exact absurd h3 (by decide)
  · intro he
    have he2 : env.home ++ [".openclaw", "settings.json"] =
        env.home ++ [".openclaw", "openclaw.mjs"] := he
    have h3 := List.append_cancel_left he2
    injection h3 with _ h3
    injection h3 with h3 _
    exact absurd h3 (by decide)
  · exact absurd rfl hne
  · intro he
    have he2 : env.base ++ d ++ [n] =
        env.home ++ [".openclaw", "openclaw.mjs"] := he
    rcases patDirs_shape d hd with ⟨_, hdne, hlast⟩
    have hd2 : (env.base ++ d.dropLast) ++ [d.getLast hdne, n] =
        env.home ++ [".openclaw", "openclaw.mjs"] := by
      rw [List.append_assoc]
      rw [show d.dropLast ++ [d.getLast hdne, n] = d ++ [n] from by
        rw [show [d.getLast hdne, n] = [d.getLast hdne] ++ [n] from rfl,
          ← List.append_assoc, List.dropLast_append_getLast hdne]]
      rw [← List.append_assoc]
      exact he2
    have h4 := (append_pair_inj _ _ _ _ _ _ hd2).1
    rw [List.getLast?_eq_getLast d hdne, h4] at hlast
    exact absurd rfl hlast

/-- Two collected files restored to the same target path have the same
source path (hence the same content). -/
theorem collect_same_target (env : Env) (cats : List String) (since : Option Int)
    (hsess : ∀ sf ∈ env.sessFiles, sf.rel ≠ [])
    (f g : CFile) (hf : f ∈ collect_files env cats since)
    (hg : g ∈ collect_files env cats since) (t : SPath)
    (htf : memberTarget env f.2 = some t)
    (htg : memberTarget env g.2 = some t) : f.1 = g.1 := by
  have hft := collect_target env cats since hsess f hf
  have hgt := collect_target env cats since hsess g hg
  by_cases hfm : f.2 = mjsArc
  · by_cases hgm : g.2 = mjsArc
    · rw [(hft.2 hfm).2, (hgt.2 hgm).2]
    · rcases hft.2 hfm with ⟨htf2, _⟩
      rw [htf] at htf2
      injection htf2 with htf2
      have hgts := hgt.1 hgm
      rw [htg] at hgts
      injection hgts with hgts
      have hmt : g.1 = mjsTarget env := hgts.symm.trans htf2
      exact absurd hmt (collect_src_ne_mjsTarget env cats since g hg hgm)
  · by_cases hgm : g.2 = mjsArc
    · rcases hgt.2 hgm with ⟨htg2, _⟩
      rw [htg] at htg2
      injection htg2 with htg2
      have hfts := hft.1 hfm
      rw [htf] at hfts
      injection hfts with hfts
      have hmt : f.1 = mjsTarget env := hfts.symm.trans htg2
      exact absurd hmt (collect_src_ne_mjsTarget env cats since f hf hfm)
    · have hfts := hft.1 hfm
      have hgts := hgt.1 hgm
      rw [htf] at hfts
      rw [htg] at hgts
      injection hfts with hfts
      injection hgts with hgts
      exact hfts.symm.trans hgts

/-! ## Claim theorems -/

theorem entryClass_skipped_iff (members : List Member) (e : SPath × String) :
    entryClass members e = EntryClass.skipped ↔ e.2 = "ERROR" := by
  by_cases h : e.2 = "ERROR"
  · rw [entryClass, if_pos h]
    exact iff_of_true rfl h
  · refine iff_of_false ?_ h
    cases hx : extractfile members e.1 with
    | none => rw [entryClass_of_none members e h hx]; decide
    | some bs =>
        rw [entryClass_of_some members e bs h hx]
        by_cases hsha : sha256hex bs = e.2
        · rw [if_pos hsha]; decide
        · rw [if_neg hsha]; decide

/-- C4: an archive that opens as a valid compressed tar stream but contains
no MANIFEST.json member verifies successfully (readable but unverified),
whereas a container that cannot be opened as a compressed tar stream at all
makes verification fail. -/
theorem C4_manifest_absent_vs_corrupt (members : List Member)
    (h : hasManifest members = false) :
    verify_archive (.opened members) = some true ∧
    verify_archive .corrupt = some false := by
  constructor
  · show (if !hasManifest members then some true
      else
        match extractfile members manifestName with
        | none => some false
        | some c =>
            (decodeManifest c).map fun m =>
              decide ((verifyFold members m).1 = 0)) = some true
    rw [h]
    rfl
  · rfl

theorem C4_witness :
    verify_archive (.opened []) = some true ∧
    verify_archive .corrupt = some false :=
  C4_manifest_absent_vs_corrupt [] (by decide)

/-- C5: within one collection run no archive-relative path appears twice,
and an element is collected exactly when it is the first candidate, in
category-processing order, that claims its archive-relative path. -/
theorem C5_dedup_invariant (env : Env) (cats : List String)
    (since : Option Int) :
    ((collect_files env cats since).map (·.2)).Nodup ∧
    ∀ x : CFile, x ∈ collect_files env cats since ↔
      (cats.flatMap (catCandidates env since)).find?
        (fun y => decide (y.2 = x.2)) = some x := by
  refine ⟨collect_files_arcs_nodup env cats since, fun x => ?_⟩
  rw [collect_files_eq_dedupFirst, mem_dedupFirst]
  simp

/-- The environment used by concrete witnesses: empty filesystem. -/
def env0 : Env :=
  ⟨[], [], none, [], fun _ => false, fun _ => none, fun _ _ => []⟩

theorem C5_witness :
    ((collect_files env0 ["memory"] none).map (·.2)).Nodup ∧
    ∀ x : CFile, x ∈ collect_files env0 ["memory"] none ↔
      (["memory"].flatMap (catCandidates env0 none)).find?
        (fun y => decide (y.2 = x.2)) = some x :=
  C5_dedup_invariant env0 ["memory"] none

/-- C10: a category identifier that is neither `sessions` nor `config` nor
a registry key is a silent no-op for collection: the run raises no error
and returns exactly what it returns without that identifier. -/
theorem C10_unknown_category_noop (env : Env) (since : Option Int)
    (pre post : List String) (c : String)
    (h1 : c ≠ "sessions") (h2 : c ≠ "config") (h3 : lookupCat c = none) :
    collect_files env (pre ++ c :: post) since =
      collect_files env (pre ++ post) since := by
  rw [collect_files, collect_files, List.foldl_append, List.foldl_append,
    List.foldl_cons]
  have hcc : catCandidates env since c = [] := by
    rw [catCandidates, if_neg h1, if_neg h2, h3]
  rw [hcc, List.foldl_nil]

theorem C10_witness :
    collect_files env0 (["memory"] ++ "bogus" :: ["goals"]) none =
      collect_files env0 (["memory"] ++ ["goals"]) none :=
  C10_unknown_category_noop env0 none ["memory"] ["goals"] "bogus"
    (by decide) (by decide) (by decide)

/-- C6: selective-mode validation is atomic: a missing include list or an
include list containing any identifier absent from the registry makes the
run exit with status 1 during validation, before collection or any archive
write — the outcome carries no archive. -/
theorem C6_selective_validation (env : Env) (incl : Option (List String))
    (since : Option Int)
    (h : incl = none ∨ ∃ c ∈ incl.getD [], lookupCat c = none) :
    main_backup env "selective" incl since = MainOutcome.exitConfigError ∧
    exitCode (main_backup env "selective" incl since) = 1 := by
  have hres : resolveCategories "selective" incl = none := by
    unfold resolveCategories
    rw [if_pos rfl]
    rcases h with rfl | ⟨c, hc, hl⟩
    · rfl
    · cases incl with
      | none => rfl
      | some cs =>
          have hc2 : c ∈ cs := hc
          have hany : cs.any (fun c => (lookupCat c).isNone) = true :=
            List.any_eq_true.mpr ⟨c, hc2, by rw [hl]; rfl⟩
          show (if cs.any (fun c => (lookupCat c).isNone) then none
            else some cs) = none
          rw [if_pos hany]
  rw [main_backup, hres]
  exact ⟨rfl, rfl⟩

theorem C6_witness :
    main_backup env0 "selective" (some ["bogus"]) none =
      MainOutcome.exitConfigError ∧
    exitCode (main_backup env0 "selective" (some ["bogus"]) none) = 1 :=
  C6_selective_validation env0 (some ["bogus"]) none
    (Or.inr ⟨"bogus", by decide, by decide⟩)

/-- C2: for an opened archive whose MANIFEST.json member parses, overall
verification succeeds iff every manifest entry whose value is not the
`"ERROR"` sentinel names a member whose recomputed SHA-256 equals the
recorded digest; the `errors` counter counts exactly the MISMATCH plus
MISSING entries, the reported `checked` counter counts exactly the OK
entries, and `"ERROR"` entries are never checked (dropping them leaves the
counters unchanged). -/
theorem C2_verify_iff (members : List Member) (c : List Nat) (m : Manifest)
    (h1 : extractfile members manifestName = some c)
    (h2 : decodeManifest c = some m) :
    (verify_archive (.opened members) = some true ↔
      ∀ e ∈ m, e.2 ≠ "ERROR" → entryVerified members e) ∧
    (verifyFold members m).1 = m.countP (fun e =>
      decide (entryClass members e = EntryClass.mismatch ∨
        entryClass members e = EntryClass.missing)) ∧
    (verifyFold members m).2 = m.countP (fun e =>
      decide (entryClass members e = EntryClass.ok)) ∧
    verifyFold members m =
      verifyFold members (m.filter (fun e => !decide (e.2 = "ERROR"))) := by
  have hva := verify_archive_opened_eq members c m h1 h2
  have hspec := verifyFold_spec members m
  have hentry : ∀ e, e ∈ m → e.2 ≠ "ERROR" →
      (¬ (entryClass members e = EntryClass.mismatch ∨
          entryClass members e = EntryClass.missing) ↔
        entryVerified members e) := by
    intro e _ herr
    cases hx : extractfile members e.1 with
    | none =>
        rw [entryClass_of_none members e herr hx]
        refine iff_of_false (fun hno => hno (Or.inr rfl)) ?_
        rw [← entryClass_ok_iff members e herr,
          entryClass_of_none members e herr hx]
        decide
    | some bs =>
        rw [← entryClass_ok_iff members e herr,
          entryClass_of_some members e bs herr hx]
        by_cases hsha : sha256hex bs = e.2
        · rw [if_pos hsha]
          exact iff_of_true (by rintro (h | h) <;> exact absurd h (by decide)) rfl
        · rw [if_neg hsha]
          exact iff_of_false (fun hno => hno (Or.inl rfl)) (by decide)
  refine ⟨?_, by rw [hspec], by rw [hspec], ?_⟩
  · rw [hva]
    constructor
    · intro h
      have h0 : (verifyFold members m).1 = 0 := by
        injection h with h
        exact of_decide_eq_true h
      rw [hspec] at h0
      have h0b : m.countP (fun e =>
          decide (entryClass members e = EntryClass.mismatch ∨
            entryClass members e = EntryClass.missing)) = 0 := h0
      intro e he herr
      have hcl := List.countP_eq_zero.mp h0b e he
      simp only [decide_eq_true_eq] at hcl
      exact (hentry e he herr).mp hcl
    · intro hall
      have h0 : (verifyFold members m).1 = 0 := by
        rw [hspec]
        show m.countP _ = 0
        rw [List.countP_eq_zero]
        intro e he
        simp only [decide_eq_true_eq]
        by_cases herr : e.2 = "ERROR"
        · rw [(entryClass_skipped_iff members e).mpr herr]
          rintro (h | h) <;> exact absurd h (by decide)
        · exact (hentry e he herr).mpr (hall e he herr)
      rw [h0]
      rfl
  · rw [hspec, verifyFold_spec]
    have hcongr : ∀ (p : SPath × String → Bool),
        (∀ e ∈ m, e.2 = "ERROR" → p e = false) →
        m.countP p =
          (m.filter (fun e => !decide (e.2 = "ERROR"))).countP p := by
      intro p hp
      rw [List.countP_filter]
      refine (List.countP_congr ?_)
      intro e he
      by_cases herr : e.2 = "ERROR"
      · rw [hp e he herr]
        simp [herr]
      · simp [herr]
    refine Prod.ext ?_ ?_
    · show m.countP _ = (m.filter _).countP _
      apply hcongr
      intro e he herr
      rw [(entryClass_skipped_iff members e).mpr herr]
      decide
    · show m.countP _ = (m.filter _).countP _
      apply hcongr
      intro e he herr
      rw [(entryClass_skipped_iff members e).mpr herr]
      decide

/-- The manifest of the concrete C2 witness archive. -/
def wManifest : Manifest := [(["x"], "ERROR")]

/-- The concrete C2 witness archive: only a MANIFEST.json member. -/
def wMembers : List Member := [⟨manifestName, true, encodeManifest wManifest⟩]

theorem C2_witness :
    (verify_archive (.opened wMembers) = some true ↔
      ∀ e ∈ wManifest, e.2 ≠ "ERROR" → entryVerified wMembers e) ∧
    (verifyFold wMembers wManifest).1 = wManifest.countP (fun e =>
      decide (entryClass wMembers e = EntryClass.mismatch ∨
        entryClass wMembers e = EntryClass.missing)) ∧
    (verifyFold wMembers wManifest).2 = wManifest.countP (fun e =>
      decide (entryClass wMembers e = EntryClass.ok)) ∧
    verifyFold wMembers wManifest =
      verifyFold wMembers (wManifest.filter (fun e => !decide (e.2 = "ERROR"))) :=
  C2_verify_iff wMembers (encodeManifest wManifest) wManifest (by decide)
    (decodeManifest_encodeManifest wManifest)

/-- C7: `compute_manifest` yields one entry per distinct archive-relative
path; with pairwise-distinct archive-relative paths each entry's value is
the SHA-256 hex digest of the file's bytes when readable and the `"ERROR"`
sentinel when reading fails, so no single unreadable file aborts the
computation; every non-sentinel value is a 64-character lowercase hex
string. -/
theorem C7_compute_manifest (read : SPath → Option (List Nat))
    (files : List CFile) :
    ((compute_manifest read files).map (·.1)).Nodup ∧
    (∀ a : SPath, (dlookup (compute_manifest read files) a).isSome = true ↔
      a ∈ files.map (·.2)) ∧
    (∀ p a, (p, a) ∈ files → (files.map (·.2)).Nodup →
      dlookup (compute_manifest read files) a = some (hashOrError read p)) ∧
    (∀ p, read p = none → hashOrError read p = "ERROR") ∧
    (∀ p bs, read p = some bs → hashOrError read p = sha256hex bs) ∧
    (∀ e ∈ compute_manifest read files, e.2 = "ERROR" ∨
      (e.2.length = 64 ∧ ∀ ch ∈ e.2.data, ch ∈ hexTable)) := by
  refine ⟨compute_manifest_keys_nodup read files, ?_, ?_, ?_, ?_, ?_⟩
  · intro a
    exact dlookup_compute_manifest_isSome read files a
  · intro p a hmem hnd
    exact dlookup_compute_manifest_of_nodup read files p a hmem hnd
  · intro p hp
    rw [hashOrError, hp]
  · intro p bs hp
    rw [hashOrError, hp]
  · intro e he
    rcases mem_compute_manifest read files e he with ⟨f, _, rfl⟩
    show hashOrError read f.1 = "ERROR" ∨ _
    cases hr : read f.1 with
    | none => exact Or.inl (by rw [hashOrError, hr])
    | some bs =>
        refine Or.inr ?_
        have hv : hashOrError read f.1 = sha256hex bs := by rw [hashOrError, hr]
        rw [hv]
        exact ⟨sha256hex_length bs, sha256hex_chars bs⟩

/-- The content source of the concrete C7 witness. -/
def helloRead : SPath → Option (List Nat) :=
  fun p => if p = ["vault", "note"] then some helloBytes else none

/-- The collected-file list of the concrete C7 witness. -/
def helloFiles : List CFile :=
  [(["vault", "note"], ["decisions", "2025-01-01-note.md"])]

set_option maxRecDepth 200000 in
theorem C7_witness :
    dlookup (compute_manifest helloRead helloFiles)
        ["decisions", "2025-01-01-note.md"] =
      some "2cf24dba5fb0a30e26e83b2ac5b9e29e1b161e5c1fa7425e73043362938b9824" := by
  have h := (C7_compute_manifest helloRead helloFiles).2.2.1
    ["vault", "note"] ["decisions", "2025-01-01-note.md"] (by decide) (by decide)
  rw [h]
  decide

/-- Read function of the C3 counterexample: every file is unreadable. -/
def c3Read : SPath → Option (List Nat) := fun _ => none

/-- Collected-file list of the C3 counterexample. -/
def c3Files : List CFile := [(["f"], ["memory", "b.md"])]

/-- C3 counterexample: when adding the single collected file fails, the
failure is warned about and the file is absent from the archive, but its
archive-relative path is NOT absent from the embedded MANIFEST.json — the
manifest maps it to the `"ERROR"` sentinel. -/
theorem C3_counterexample :
    (create_backup c3Read c3Files "full").warnings = [["memory", "b.md"]] ∧
    (∀ mem ∈ (create_backup c3Read c3Files "full").members,
      mem.name ≠ ["memory", "b.md"]) ∧
    (extractfile (create_backup c3Read c3Files "full").members
        manifestName).bind decodeManifest =
      some [(["memory", "b.md"], "ERROR")] := by decide

/-- C3 (amended): a failure adding an individual collected file is reported
as a warning, the run still completes and produces an archive containing a
MANIFEST.json member, and the failed file is absent from the archive
payload — but its archive-relative path remains a key of the embedded
MANIFEST.json, mapped to the `"ERROR"` sentinel, rather than being absent
from the manifest. -/
theorem C3_amended (read : SPath → Option (List Nat)) (files : List CFile)
    (label : String) (p a : SPath) (hmem : (p, a) ∈ files)
    (hfail : read p = none) (hnd : (files.map (·.2)).Nodup) :
    a ∈ (create_backup read files label).warnings ∧
    (∀ mem ∈ payloadMembers read files, mem.name ≠ a) ∧
    dlookup (compute_manifest read files) a = some "ERROR" ∧
    hasManifest (create_backup read files label).members = true := by
  refine ⟨?_, ?_, ?_, ?_⟩
  · show a ∈ addWarnings read files
    refine List.mem_filterMap.mpr ⟨(p, a), hmem, ?_⟩
    show (match read p with
      | some _ => none
      | none => some a) = some a
    rw [hfail]
  · intro mem hm hname
    rcases List.mem_filterMap.mp hm with ⟨g, hgmem, hsome⟩
    cases hr : read g.1 with
    | none => rw [hr] at hsome; exact absurd hsome (by simp)
    | some bs =>
        rw [hr] at hsome
        have hsome2 : (some (⟨g.2, true, bs⟩ : Member)) = some mem := hsome
        injection hsome2 with hsome2
        have hga : g.2 = a := by rw [← hname, ← hsome2]
        have hgp : g = (p, a) :=
          List.inj_on_of_nodup_map hnd hgmem hmem (by rw [hga])
        rw [hgp] at hr
        rw [hfail] at hr
        exact absurd hr (by simp)
  · have h := dlookup_compute_manifest_of_nodup read files p a hmem hnd
    rw [h, hashOrError, hfail]
  · show hasManifest (payloadMembers read files ++
      [⟨manifestName, true, encodeManifest (compute_manifest read files)⟩,
       ⟨metaName, true, encodeMeta (runMeta label files)⟩]) = true
    rw [hasManifest]
    refine List.any_eq_true.mpr
      ⟨⟨manifestName, true, encodeManifest (compute_manifest read files)⟩,
        ?_, by simp⟩
    exact List.mem_append.mpr (Or.inr (List.mem_cons_self _ _))

theorem C3_witness :
    ["memory", "b.md"] ∈ (create_backup c3Read c3Files "selective").warnings ∧
    (∀ mem ∈ payloadMembers c3Read c3Files, mem.name ≠ ["memory", "b.md"]) ∧
    dlookup (compute_manifest c3Read c3Files) ["memory", "b.md"] =
      some "ERROR" ∧
    hasManifest (create_backup c3Read c3Files "selective").members = true :=
  C3_amended c3Read c3Files "selective" ["f"] ["memory", "b.md"]
    (by decide) (by decide) (by decide)

/-- C8: restore writes every member other than the two synthetic metadata
members to a target determined solely by its archive-path prefix —
`sessions/…` to the resolved sessions directory (skipped without failing
the rest when none resolves), `config/…` under the home `.openclaw`
directory, anything else under the project base directory — and the final
filesystem state overwrites each written target unconditionally with the
last member written to it, leaving unwritten paths untouched. -/
theorem C8_restore_targets (env : Env) (members : List Member) :
    (∀ r rs, memberTarget env ("sessions" :: r :: rs) =
      (sessionsDirOf env).map (fun sd => sd ++ r :: rs)) ∧
    (∀ r rs, memberTarget env ("config" :: r :: rs) =
      some (env.home ++ [".openclaw", r] ++ rs)) ∧
    (∀ n : SPath, (∀ r rs, n ≠ "sessions" :: r :: rs) →
      (∀ r rs, n ≠ "config" :: r :: rs) →
      memberTarget env n = some (env.base ++ n)) ∧
    (sessionsDirOf env = none →
      restoreWrites env members =
        restoreWrites env (members.filter (fun mem => !isSessionName mem.name))) ∧
    (∀ mem ∈ members, ¬(mem.name = manifestName ∨ mem.name = metaName) →
      ∀ t, memberTarget env mem.name = some t → mem.isFile = true →
        (t, mem.content) ∈ restoreWrites env members) ∧
    (∀ fs0 t, restoreFs env members fs0 t =
      match lastWrite (restoreWrites env members) t with
      | some c => some c
      | none => fs0 t) := by
  refine ⟨?_, ?_, ?_, ?_, ?_, ?_⟩
  · intro r rs; exact memberTarget_sessions env r rs
  · intro r rs; exact memberTarget_config env r rs
  · intro n h1 h2; exact memberTarget_other env n h1 h2
  · intro h; exact restoreWrites_no_sessions env members h
  · intro mem hm hmeta t ht hisf
    exact (mem_restoreWrites env members t mem.content).mpr
      ⟨mem, hm, hmeta, ht, hisf, rfl⟩
  · intro fs0 t; exact restoreFs_eq env members fs0 t

theorem C8_witness :
    (∀ r rs, memberTarget env0 ("sessions" :: r :: rs) =
      (sessionsDirOf env0).map (fun sd => sd ++ r :: rs)) ∧
    (∀ r rs, memberTarget env0 ("config" :: r :: rs) =
      some (env0.home ++ [".openclaw", r] ++ rs)) ∧
    (∀ n : SPath, (∀ r rs, n ≠ "sessions" :: r :: rs) →
      (∀ r rs, n ≠ "config" :: r :: rs) →
      memberTarget env0 n = some (env0.base ++ n)) ∧
    (sessionsDirOf env0 = none →
      restoreWrites env0 [⟨["memory", "a.md"], true, [7]⟩] =
        restoreWrites env0 ([⟨["memory", "a.md"], true, [7]⟩].filter
          (fun mem => !isSessionName mem.name))) ∧
    (∀ mem ∈ [(⟨["memory", "a.md"], true, [7]⟩ : Member)],
      ¬(mem.name = manifestName ∨ mem.name = metaName) →
      ∀ t, memberTarget env0 mem.name = some t → mem.isFile = true →
        (t, mem.content) ∈ restoreWrites env0 [⟨["memory", "a.md"], true, [7]⟩]) ∧
    (∀ fs0 t, restoreFs env0 [⟨["memory", "a.md"], true, [7]⟩] fs0 t =
      match lastWrite (restoreWrites env0 [⟨["memory", "a.md"], true, [7]⟩]) t with
      | some c => some c
      | none => fs0 t) :=
  C8_restore_targets env0 [⟨["memory", "a.md"], true, [7]⟩]

/-! ## C9 support -/

theorem rotate_backups_keep_all (dir : List Arch) (keep : Int)
    (hk : ¬ keep ≤ 0)
    (hle : (sortByMtimeDesc (dir.filter
      (fun a => matchesBackupPattern a.name))).length ≤ keep.toNat) :
    rotate_backups dir keep = dir := by
  rw [rotate_backups, if_neg hk]
  exact if_pos hle

theorem rotate_backups_del (dir : List Arch) (keep : Int) (hk : ¬ keep ≤ 0)
    (hgt : ¬ (sortByMtimeDesc (dir.filter
      (fun a => matchesBackupPattern a.name))).length ≤ keep.toNat) :
    rotate_backups dir keep = dir.filter (fun a =>
      decide (a ∉ (sortByMtimeDesc (dir.filter
        (fun b => matchesBackupPattern b.name))).drop keep.toNat)) := by
  rw [rotate_backups, if_neg hk]
  exact if_neg hgt

theorem countP_lt_length_of_mem_not {α : Type} (l : List α) (p : α → Bool)
    (x : α) (hx : x ∈ l) (hpx : p x = false) : l.countP p < l.length := by
  induction l with
  | nil => simp at hx
  | cons b bs ih =>
      rw [List.countP_cons, List.length_cons]
      rcases List.mem_cons.mp hx with rfl | hxbs
      · rw [hpx]
        have h2 : bs.countP p ≤ bs.length := List.countP_le_length p
        simp
        omega
      · by_cases hpb : p b = true
        · rw [if_pos hpb]
          have := ih hxbs
          omega
        · rw [if_neg hpb]
          have := ih hxbs
          omega

/-- C9: with pairwise-distinct modification times among the matching
archives, rotation with `keep <= 0` deletes nothing; with `keep > 0` (and
every deletion succeeding) the number of archives matching the backup
filename pattern becomes `min keep countBefore`, and a matching archive
survives exactly when fewer than `keep` matching archives are more recently
modified. -/
theorem C9_retention (dir : List Arch) (keep : Int)
    (hnd : ((dir.filter (fun a => matchesBackupPattern a.name)).map
      (·.mtime)).Nodup) :
    (keep ≤ 0 → rotate_backups dir keep = dir) ∧
    (0 < keep →
      ((rotate_backups dir keep).filter
          (fun a => matchesBackupPattern a.name)).length
        = min keep.toNat
            (dir.filter (fun a => matchesBackupPattern a.name)).length ∧
      ∀ a ∈ dir, matchesBackupPattern a.name = true →
        (a ∈ rotate_backups dir keep ↔
          (dir.filter (fun b => matchesBackupPattern b.name)).countP
            (fun b => decide (a.mtime < b.mtime)) < keep.toNat)) := by
  constructor
  · intro hk
    rw [rotate_backups, if_pos hk]
  · intro hk
    have hk0 : ¬ keep ≤ 0 := by omega
    set M := dir.filter (fun a => matchesBackupPattern a.name) with hM
    set S := sortByMtimeDesc M with hS
    have hperm : S.Perm M := sortByMtimeDesc_perm M
    have hlen : S.length = M.length := hperm.length_eq
    have hndmS : (S.map (·.mtime)).Nodup :=
      (hperm.map (·.mtime)).nodup_iff.mpr hnd
    have hstrict : List.Pairwise (fun a b => b.mtime < a.mtime) S :=
      pairwise_lt_of_le_nodup S (by rw [hS]; exact sortByMtimeDesc_sorted M)
        hndmS
    have hndS : S.Nodup := List.Nodup.of_map _ hndmS
    by_cases hcase : S.length ≤ keep.toNat
    · have hrot : rotate_backups dir keep = dir := by
        refine rotate_backups_keep_all dir keep hk0 ?_
        rw [hS, hM] at hcase
        exact hcase
      constructor
      · rw [hrot, ← hM]
        omega
      · intro a ha hmatch
        have haM : a ∈ M := by rw [hM]; exact List.mem_filter.mpr ⟨ha, hmatch⟩
        rw [hrot]
        refine iff_of_true ha ?_
        have hlt := countP_lt_length_of_mem_not M
          (fun b => decide (a.mtime < b.mtime)) a haM (by simp)
        omega
    · have hrot := rotate_backups_del dir keep hk0
        (by rw [hS, hM] at hcase; exact hcase)
      rw [← hM, ← hS] at hrot
      set D := S.drop keep.toNat with hD
      set T := S.take keep.toNat with hT
      have hTD : T ++ D = S := by
        rw [hT, hD]; exact List.take_append_drop _ S
      have hndTD : (T ++ D).Nodup := by rw [hTD]; exact hndS
      have hdisj : T.Disjoint D := (List.nodup_append.mp hndTD).2.2
      have hmemiff : ∀ a ∈ M, (decide (a ∉ D) = true ↔ a ∈ T) := by
        intro a haM
        have haS : a ∈ S := hperm.mem_iff.mpr haM
        have haTD : a ∈ T ∨ a ∈ D := by
          rw [← List.mem_append, hTD]; exact haS
        constructor
        · intro hdec
          have hnD : a ∉ D := of_decide_eq_true hdec
          rcases haTD with h | h
          · exact h
          · exact absurd h hnD
        · intro hT2
          exact decide_eq_true (fun hD2 => hdisj hT2 hD2)
      constructor
      · have e1 : ((dir.filter (fun a => decide (a ∉ D))).filter
            (fun a => matchesBackupPattern a.name)).length
            = dir.countP
                (fun a => matchesBackupPattern a.name && decide (a ∉ D)) := by
          rw [← List.countP_eq_length_filter, List.countP_filter]
        have e2 : (M.filter (fun a => decide (a ∉ D))).length
            = dir.countP
                (fun a => decide (a ∉ D) && matchesBackupPattern a.name) := by
          rw [← List.countP_eq_length_filter, hM, List.countP_filter]
        have e3 : dir.countP
              (fun a => matchesBackupPattern a.name && decide (a ∉ D))
            = dir.countP
                (fun a => decide (a ∉ D) && matchesBackupPattern a.name) :=
          List.countP_congr (fun x _ => by rw [Bool.and_comm])
        have e4 : (M.filter (fun a => decide (a ∉ D))).length = T.length := by
          have hpf : (S.filter (fun a => decide (a ∉ D))).Perm
              (M.filter (fun a => decide (a ∉ D))) := hperm.filter _
          rw [← hpf.length_eq, ← hTD, List.filter_append]
          have hTkeep : T.filter (fun a => decide (a ∉ D)) = T := by
            rw [List.filter_eq_self]
            intro a haT
            exact decide_eq_true (fun hD2 => hdisj haT hD2)
          have hDgone : D.filter (fun a => decide (a ∉ D)) = [] := by
            rw [List.filter_eq_nil_iff]
            intro a haD
            simp [haD]
          rw [hTkeep, hDgone, List.append_nil]
        have e5 : T.length = min keep.toNat S.length := by
          rw [hT, List.length_take]
        rw [hrot, e1, e3, ← e2, e4]
        omega
      · intro a ha hmatch
        have haM : a ∈ M := by rw [hM]; exact List.mem_filter.mpr ⟨ha, hmatch⟩
        have haS : a ∈ S := hperm.mem_iff.mpr haM
        rw [hrot, List.mem_filter]
        have hrank := mem_take_iff_rank S hstrict keep.toNat a haS
        have hcnt : S.countP (fun b => decide (a.mtime < b.mtime))
            = M.countP (fun b => decide (a.mtime < b.mtime)) :=
          hperm.countP_eq _
        constructor
        · rintro ⟨_, hdec⟩
          have haT : a ∈ T := (hmemiff a haM).mp hdec
          have hlt := hrank.mp (by rw [hT] at haT; exact haT)
          omega
        · intro hcount
          refine ⟨ha, ?_⟩
          have haT : a ∈ S.take keep.toNat := hrank.mpr (by omega)
          exact (hmemiff a haM).mpr (by rw [hT]; exact haT)

theorem C9_witness :
    ((-1 : Int) ≤ 0 →
      rotate_backups [⟨"openclaw-backup-a.tar.gz", 1⟩,
        ⟨"openclaw-backup-b.tar.gz", 2⟩, ⟨"notes.txt", 5⟩] (-1) =
        [⟨"openclaw-backup-a.tar.gz", 1⟩, ⟨"openclaw-backup-b.tar.gz", 2⟩,
         ⟨"notes.txt", 5⟩]) ∧
    ((0 : Int) < 1 →
      ((rotate_backups [⟨"openclaw-backup-a.tar.gz", 1⟩,
          ⟨"openclaw-backup-b.tar.gz", 2⟩, ⟨"notes.txt", 5⟩] 1).filter
        (fun a => matchesBackupPattern a.name)).length
        = min (1 : Int).toNat
            (([⟨"openclaw-backup-a.tar.gz", 1⟩,
               ⟨"openclaw-backup-b.tar.gz", 2⟩,
               ⟨"notes.txt", 5⟩] : List Arch).filter
              (fun a => matchesBackupPattern a.name)).length ∧
      ∀ a ∈ ([⟨"openclaw-backup-a.tar.gz", 1⟩,
          ⟨"openclaw-backup-b.tar.gz", 2⟩, ⟨"notes.txt", 5⟩] : List Arch),
        matchesBackupPattern a.name = true →
        (a ∈ rotate_backups [⟨"openclaw-backup-a.tar.gz", 1⟩,
            ⟨"openclaw-backup-b.tar.gz", 2⟩, ⟨"notes.txt", 5⟩] 1 ↔
          (([⟨"openclaw-backup-a.tar.gz", 1⟩,
             ⟨"openclaw-backup-b.tar.gz", 2⟩,
             ⟨"notes.txt", 5⟩] : List Arch).filter
            (fun b => matchesBackupPattern b.name)).countP
            (fun b => decide (a.mtime < b.mtime)) < (1 : Int).toNat)) := by
  constructor
  · intro _
    exact (C9_retention [⟨"openclaw-backup-a.tar.gz", 1⟩,
      ⟨"openclaw-backup-b.tar.gz", 2⟩, ⟨"notes.txt", 5⟩] (-1)
      (by decide)).1 (by decide)
  · intro _
    exact (C9_retention [⟨"openclaw-backup-a.tar.gz", 1⟩,
      ⟨"openclaw-backup-b.tar.gz", 2⟩, ⟨"notes.txt", 5⟩] 1
      (by decide)).2 (by decide)

/-! ## C1 support -/

theorem create_backup_members (read : SPath → Option (List Nat))
    (files : List CFile) (label : String) :
    (create_backup read files label).members =
      payloadMembers read files ++
        [⟨manifestName, true, encodeManifest (compute_manifest read files)⟩,
         ⟨metaName, true, encodeMeta (runMeta label files)⟩] := rfl

theorem payload_names (read : SPath → Option (List Nat)) :
    ∀ (files : List CFile), (∀ f ∈ files, (read f.1).isSome = true) →
      (payloadMembers read files).map (·.name) = files.map (·.2) := by
  intro files
  induction files with
  | nil => intro _; rfl
  | cons f fs ih =>
      intro hall
      rw [payloadMembers, List.filterMap_cons]
      cases hr : read f.1 with
      | none =>
          have h2 := hall f (List.mem_cons_self _ _)
          rw [hr] at h2
          exact absurd h2 (by simp)
      | some bs =>
          show ((⟨f.2, true, bs⟩ : Member) :: payloadMembers read fs).map
            (·.name) = f.2 :: fs.map (·.2)
          rw [List.map_cons, ih (fun g hg => hall g (List.mem_cons_of_mem _ hg))]

theorem countP_name_payload (read : SPath → Option (List Nat))
    (files : List CFile) (a : SPath)
    (hall : ∀ f ∈ files, (read f.1).isSome = true) :
    (payloadMembers read files).countP (fun mem => decide (mem.name = a)) =
      files.countP (fun g => decide (g.2 = a)) := by
  have h1 := payload_names read files hall
  have h2 : (payloadMembers read files).countP
        (fun mem => decide (mem.name = a))
      = ((payloadMembers read files).map (·.name)).countP
          (fun nm => decide (nm = a)) :=
    (List.countP_map (fun nm => decide (nm = a))
      (fun mem : Member => mem.name) (payloadMembers read files)).symm
  rw [h2, h1]
  exact List.countP_map (fun nm => decide (nm = a))
    (fun g : CFile => g.2) files

theorem mem_payloadMembers (read : SPath → Option (List Nat))
    (files : List CFile) (mem : Member) (h : mem ∈ payloadMembers read files) :
    ∃ g ∈ files, ∃ bs, read g.1 = some bs ∧ mem = ⟨g.2, true, bs⟩ := by
  rcases List.mem_filterMap.mp h with ⟨g, hg, hsome⟩
  cases hr : read g.1 with
  | none => rw [hr] at hsome; exact absurd hsome (by simp)
  | some bs =>
      rw [hr] at hsome
      have hsome2 : some (⟨g.2, true, bs⟩ : Member) = some mem := hsome
      injection hsome2 with hsome2
      exact ⟨g, hg, bs, hr, hsome2.symm⟩

theorem lastWrite_eq_of_all (ws : List (SPath × List Nat)) (t : SPath)
    (c : List Nat) (hmem : (t, c) ∈ ws)
    (hall : ∀ w ∈ ws, w.1 = t → w.2 = c) : lastWrite ws t = some c := by
  rw [lastWrite]
  cases hf : ws.reverse.find? (fun wr => decide (wr.1 = t)) with
  | none =>
      have h2 := List.find?_eq_none.mp hf (t, c) (List.mem_reverse.mpr hmem)
      simp at h2
  | some w =>
      have hw1 := List.find?_some hf
      have hwmem := List.mem_of_find?_eq_some hf
      rw [List.mem_reverse] at hwmem
      simp only [decide_eq_true_eq] at hw1
      simp [hall w hwmem hw1]

theorem reverse_pair {α : Type} (x y : α) : ([x, y] : List α).reverse = [y, x] :=
  rfl

theorem getmember_create_manifest (read : SPath → Option (List Nat))
    (files : List CFile) (label : String) :
    getmember (create_backup read files label).members manifestName =
      some ⟨manifestName, true, encodeManifest (compute_manifest read files)⟩ := by
  rw [create_backup_members, getmember, List.reverse_append, reverse_pair,
    List.find?_append,
    List.find?_cons_of_neg _ (by simp [metaName, manifestName]),
    List.find?_cons_of_pos _ (by simp)]
  rfl

theorem getmember_create_payload (read : SPath → Option (List Nat))
    (files : List CFile) (label : String) (p a : SPath) (bs : List Nat)
    (hall : ∀ f ∈ files, (read f.1).isSome = true)
    (hnd : (files.map (·.2)).Nodup) (hmem : (p, a) ∈ files)
    (hbs : read p = some bs) (hne1 : a ≠ manifestName) (hne2 : a ≠ metaName) :
    getmember (create_backup read files label).members a =
      some ⟨a, true, bs⟩ := by
  rw [create_backup_members, getmember, List.reverse_append, reverse_pair,
    List.find?_append]
  have hmetafind : List.find? (fun mem => decide (mem.name = a))
      ([⟨metaName, true, encodeMeta (runMeta label files)⟩,
        ⟨manifestName, true, encodeManifest (compute_manifest read files)⟩] :
        List Member)
      = none := by
    rw [List.find?_eq_none]
    intro mem hmeml
    simp only [List.mem_cons, List.not_mem_nil, or_false] at hmeml
    rcases hmeml with rfl | rfl
    · simp only [decide_eq_true_eq]
      exact fun hh => hne2 hh.symm
    · simp only [decide_eq_true_eq]
      exact fun hh => hne1 hh.symm
  have hx : (⟨a, true, bs⟩ : Member) ∈ (payloadMembers read files).reverse := by
    rw [List.mem_reverse]
    refine List.mem_filterMap.mpr ⟨(p, a), hmem, ?_⟩
    show (read p).map (fun bs => (⟨a, true, bs⟩ : Member)) = some ⟨a, true, bs⟩
    rw [hbs]
    rfl
  have hcnt : (payloadMembers read files).reverse.countP
      (fun mem => decide (mem.name = a)) = 1 := by
    rw [(List.reverse_perm _).countP_eq, countP_name_payload read files a hall]
    exact countP_arc_eq_one files p a hmem hnd
  rw [hmetafind, Option.none_or,
    find?_eq_of_countP_eq_one _ _ ⟨a, true, bs⟩ hx (by simp) hcnt]

/-- Environment of the C1 counterexample: only the project-level config
file `openclaw.mjs` exists. -/
def c1Env : Env :=
  ⟨["proj"], ["home"], none, [],
   fun p => decide (p = ["proj", "openclaw.mjs"]),
   fun p => if p = ["proj", "openclaw.mjs"] then some [1, 2, 3] else none,
   fun _ _ => []⟩

/-- C1 counterexample: a non-empty set of readable source files for which
the restore of the created archive does NOT reproduce the file's content at
its original location — `openclaw.mjs` is collected from the project root
but restored under the home `.openclaw` directory, so its original path
stays empty on an empty target filesystem. -/
theorem C1_counterexample :
    collect_files c1Env ["config"] none =
      [(["proj", "openclaw.mjs"], ["config", "openclaw.mjs"])] ∧
    (∀ f ∈ collect_files c1Env ["config"] none,
      (c1Env.read f.1).isSome = true) ∧
    c1Env.read ["proj", "openclaw.mjs"] = some [1, 2, 3] ∧
    restoreFs c1Env (create_backup c1Env.read
        (collect_files c1Env ["config"] none) "full").members
      (fun _ => none) ["proj", "openclaw.mjs"] = none := by decide

/-- C1 (amended): for every non-empty set of readable collected files,
verification of the archive produced by `create_backup` succeeds, and
restoring that archive reproduces every original file's byte content
exactly at its original location — except the project-level config file
`openclaw.mjs`, which is restored under the home `.openclaw` directory
instead of the project root. -/
theorem C1_roundtrip_amended (env : Env) (cats : List String)
    (since : Option Int) (label : String) (fs0 : SPath → Option (List Nat))
    (hne : collect_files env cats since ≠ [])
    (hsess : ∀ sf ∈ env.sessFiles, sf.rel ≠ [])
    (hread : ∀ f ∈ collect_files env cats since,
      (env.read f.1).isSome = true) :
    verify_archive (.opened (create_backup env.read
        (collect_files env cats since) label).members) = some true ∧
    ∀ f ∈ collect_files env cats since, ∃ t,
      memberTarget env f.2 = some t ∧
      restoreFs env (create_backup env.read
          (collect_files env cats since) label).members fs0 t
        = env.read f.1 ∧
      (f.2 ≠ mjsArc → t = f.1) ∧
      (f.2 = mjsArc → t = mjsTarget env ∧
        f.1 = env.base ++ ["openclaw.mjs"]) := by
  have hnd := collect_files_arcs_nodup env cats since
  constructor
  · have hex : extractfile (create_backup env.read
        (collect_files env cats since) label).members manifestName
        = some (encodeManifest
            (compute_manifest env.read (collect_files env cats since))) := by
      rw [extractfile, getmember_create_manifest]
      rfl
    have hva := verify_archive_opened_eq _ _ _ hex
      (decodeManifest_encodeManifest _)
    rw [hva]
    have h0 : (verifyFold (create_backup env.read
        (collect_files env cats since) label).members
        (compute_manifest env.read (collect_files env cats since))).1 = 0 := by
      rw [verifyFold_spec]
      show List.countP _ _ = 0
      rw [List.countP_eq_zero]
      intro e he
      simp only [decide_eq_true_eq]
      rcases mem_compute_manifest env.read _ e he with ⟨f, hf, rfl⟩
      rcases Option.isSome_iff_exists.mp (hread f hf) with ⟨bs, hbs⟩
      have hherr : hashOrError env.read f.1 = sha256hex bs := by
        rw [hashOrError, hbs]
      have hnem := collect_arc_ne_meta env cats since f hf
      have hgm := getmember_create_payload env.read
        (collect_files env cats since) label f.1 f.2 bs hread hnd hf hbs
        hnem.1 hnem.2
      have hxf : extractfile (create_backup env.read
          (collect_files env cats since) label).members f.2 = some bs := by
        rw [extractfile, hgm]
        rfl
      have herrne : hashOrError env.read f.1 ≠ "ERROR" := by
        rw [hherr]
        exact sha256hex_ne_ERROR bs
      rw [entryClass_of_some _ _ bs herrne hxf,
        if_pos (show sha256hex bs = (f.2, hashOrError env.read f.1).2 from
          hherr.symm)]
      decide
    rw [h0]
    rfl
  · intro f hf
    have hnem := collect_arc_ne_meta env cats since f hf
    rcases Option.isSome_iff_exists.mp (hread f hf) with ⟨bs, hbs⟩
    have hct := collect_target env cats since hsess f hf
    have hmain : ∀ t, memberTarget env f.2 = some t →
        restoreFs env (create_backup env.read
          (collect_files env cats since) label).members fs0 t
          = env.read f.1 := by
      intro t htarget
      rw [restoreFs_eq]
      have hmemmem : (⟨f.2, true, bs⟩ : Member) ∈ (create_backup env.read
          (collect_files env cats since) label).members := by
        rw [create_backup_members]
        refine List.mem_append.mpr (Or.inl ?_)
        refine List.mem_filterMap.mpr ⟨f, hf, ?_⟩
        show (env.read f.1).map (fun bs => (⟨f.2, true, bs⟩ : Member))
          = some ⟨f.2, true, bs⟩
        rw [hbs]
        rfl
      have hwmem : (t, bs) ∈ restoreWrites env (create_backup env.read
          (collect_files env cats since) label).members :=
        (mem_restoreWrites _ _ _ _).mpr ⟨⟨f.2, true, bs⟩, hmemmem,
          by rintro (h | h)
             · exact hnem.1 h
             · exact hnem.2 h,
          htarget, rfl, rfl⟩
      have hall : ∀ w ∈ restoreWrites env (create_backup env.read
          (collect_files env cats since) label).members, w.1 = t → w.2 = bs := by
        intro w hw hwt
        rcases (mem_restoreWrites env _ w.1 w.2).mp hw with
          ⟨mem, hmm, hmeta, htw, hisf, hcw⟩
        rw [create_backup_members] at hmm
        rcases List.mem_append.mp hmm with hpay | hmeta2
        · rcases mem_payloadMembers _ _ _ hpay with ⟨g, hgf, bsg, hbsg, rfl⟩
          have htw2 : memberTarget env g.2 = some t := by rw [htw, hwt]
          have hsame : g.1 = f.1 :=
            collect_same_target env cats since hsess g f hgf hf t htw2 htarget
          rw [← hcw]
          show bsg = bs
          rw [hsame] at hbsg
          rw [hbsg] at hbs
          injection hbs
        · simp only [List.mem_cons, List.not_mem_nil, or_false] at hmeta2
          rcases hmeta2 with rfl | rfl
          · exact absurd (Or.inl rfl) hmeta
          · exact absurd (Or.inr rfl) hmeta
      rw [lastWrite_eq_of_all _ t bs hwmem hall, hbs]
    by_cases hfm : f.2 = mjsArc
    · exact ⟨mjsTarget env, (hct.2 hfm).1, hmain _ (hct.2 hfm).1,
        fun hcon => absurd hfm hcon, fun _ => ⟨rfl, (hct.2 hfm).2⟩⟩
    · exact ⟨f.1, hct.1 hfm, hmain _ (hct.1 hfm),
        fun _ => rfl, fun hcon => absurd hcon hfm⟩

/-- Environment of the C1 witness: one vault file `memory/goals.md` with
content "hello". -/
def w1Env : Env :=
  ⟨["proj"], ["home"], none, [],
   fun _ => false,
   fun p => if p = ["proj", "memory", "goals.md"] then some helloBytes else none,
   fun d pat => if d = ["proj", "memory"] ∧ pat = "goals.md" then ["goals.md"]
     else []⟩

set_option maxRecDepth 400000 in
theorem C1_witness :
    verify_archive (.opened (create_backup w1Env.read
        (collect_files w1Env ["goals"] none) "full").members) = some true ∧
    ∀ f ∈ collect_files w1Env ["goals"] none, ∃ t,
      memberTarget w1Env f.2 = some t ∧
      restoreFs w1Env (create_backup w1Env.read
          (collect_files w1Env ["goals"] none) "full").members
        (fun _ => none) t = w1Env.read f.1 ∧
      (f.2 ≠ mjsArc → t = f.1) ∧
      (f.2 = mjsArc → t = mjsTarget w1Env ∧
        f.1 = w1Env.base ++ ["openclaw.mjs"]) :=
  C1_roundtrip_amended w1Env ["goals"] none "full" (fun _ => none)
    (by decide) (by decide) (by decide)
